import Mathlib

/-! dupes: duplicate-file detection by size, then CRC-32

A shallow embedding of `dupes.go` (package `main`) and a verification of its
specification.

* The package-level variables `lens`, `dupeLens`, `dedupeSz`, `totalSz` are the
  fields of `State`, threaded explicitly through every function.
* Go maps whose absent keys read as the nil slice (`lens`, `hashes`) are total
  functions into lists with default `[]`; the program never ranges over a map.
* The operating system is the record `FS`: `os.Stat` and `ioutil.ReadFile` as
  functions of the path (one snapshot of the file system), and per root the
  sequence of entries that `filepath.Walk` hands to its callback.
* `error` values are their messages. `int64` sizes are integers; no arithmetic is
  done on them. The `int` counters are integers without wrap-around: they only
  receive lengths of byte slices that were read and products of such lengths
  with slice lengths.
* `fmt.Println` output is a list of `Line`s, one constructor per call site.
* Ghost data, not present in the source: `State.calls` logs the arguments of the
  `sameHash` calls, and `members` keeps, next to every joined group string, the
  slice of paths it was joined from.

The file has three parts: the program, the vocabulary in which the properties are
stated, and the theorems.
-/

namespace Dupes

/-- Go `error` values, identified by their message. -/
abbrev Err := String

/-- One call of the `filepath.WalkFunc`: the path, whether `info.IsDir()` holds,
and the incoming error (`none` for `nil`). -/
structure Entry where
  path : String
  isDir : Bool
  err : Option Err
deriving DecidableEq

/-- The file system as the program observes it. `entries root` is the sequence of
calls `filepath.Walk root` makes for as long as the callback keeps returning `nil`. -/
structure FS where
  stat : String → Except Err Int
  readFile : String → Except Err (List UInt8)
  entries : String → List Entry

/-- The package-level variables of `dupes.go`. `calls` is a ghost log of the
arguments of every `sameHash` call, in call order. -/
structure State where
  lens : Int → List String
  dupeLens : List Int
  dedupeSz : Int
  totalSz : Int
  calls : List (List String)

/-- The state at program start. -/
def State.init : State :=
  { lens := fun _ => [], dupeLens := [], dedupeSz := 0, totalSz := 0, calls := [] }

/-! ## hash/crc32 -/

/-- One bit of the reflected CRC-32 division by the IEEE polynomial `0xedb88320`. -/
def crcBit (c : Nat) : Nat :=
  if c % 2 = 1 then (c >>> 1) ^^^ 0xedb88320 else c >>> 1

/-- Feeding one byte into the running CRC register. -/
def crcByte (c : Nat) (b : UInt8) : Nat :=
  crcBit (crcBit (crcBit (crcBit (crcBit (crcBit (crcBit (crcBit (c ^^^ b.toNat))))))))

/-- The function `crc32.ChecksumIEEE`: register preset to all ones, final complement. -/
def ChecksumIEEE (data : List UInt8) : Nat :=
  (data.foldl crcByte 0xffffffff) ^^^ 0xffffffff

/-! ## Indexing by size -/

/-- The function `sameLength`. -/
def sameLength (fs : FS) (path : String) (st : State) : State × Option Err :=
  match fs.stat path with
  | .error err => (st, some err)
  | .ok sz =>
    let st1 : State := { st with lens := Function.update st.lens sz (st.lens sz ++ [path]) }
    if (st1.lens sz).length = 2 then
      ({ st1 with dupeLens := st1.dupeLens ++ [sz] }, none)
    else
      (st1, none)

/-- The closure `walkFn` inside `walk`. -/
def walkFn (fs : FS) (e : Entry) (st : State) : State × Option Err :=
  if e.err.isSome || e.isDir then (st, e.err) else sameLength fs e.path st

/-- The function `filepath.Walk`, for a callback that never returns `SkipDir`: the
entries are handed over in order, and the first non-nil error returned by the
callback stops the walk and is returned ("If an error is returned, processing stops"). -/
def Walk (fn : Entry → State → State × Option Err) : List Entry → State → State × Option Err
  | [], st => (st, none)
  | e :: es, st =>
    match fn e st with
    | (st1, some err) => (st1, some err)
    | (st1, none) => Walk fn es st1

/-- The function `walk`. -/
def walk (fs : FS) (root : String) (st : State) : State × Option Err :=
  Walk (walkFn fs) (fs.entries root) st

/-! ## Resolving one size bucket by checksum -/

/-- The local variables of `sameHash`. `members` is a ghost copy of the slices that
were joined into `dupePaths`, in the same order. -/
structure Locals where
  hashes : Nat → List String
  dupes : List Nat
  dupesSz : List Int
  dupePaths : List String
  members : List (List String)

/-- The locals at entry of `sameHash`. -/
def Locals.init : Locals :=
  { hashes := fun _ => [], dupes := [], dupesSz := [], dupePaths := [], members := [] }

/-- The first loop of `sameHash` (`for _, path := range paths`); an error is the
early `return dupePaths, err`. -/
def scan (fs : FS) : List String → Locals → State → Locals × State × Option Err
  | [], l, st => (l, st, none)
  | path :: rest, l, st =>
    match fs.readFile path with
    | .error err => (l, st, some err)
    | .ok data =>
      let check := ChecksumIEEE data
      let l1 : Locals :=
        { l with hashes := Function.update l.hashes check (l.hashes check ++ [path]) }
      if (l1.hashes check).length = 2 then
        scan fs rest
          { l1 with dupes := l1.dupes ++ [check], dupesSz := l1.dupesSz ++ [(data.length : Int)] }
          { st with dedupeSz := st.dedupeSz + (data.length : Int) }
      else
        scan fs rest l1 st

/-- The second loop of `sameHash` (`for i, v := range dupes`), from index `i` on. -/
def render : Nat → List Nat → Locals → State → Locals × State
  | _, [], l, st => (l, st)
  | i, v :: vs, l, st =>
    render (i + 1) vs
      { l with dupePaths := l.dupePaths ++ [", ".intercalate (l.hashes v)],
               members := l.members ++ [l.hashes v] }
      { st with totalSz := st.totalSz + l.dupesSz.getD i 0 * ((l.hashes v).length : Int) }

/-- What `sameHash` hands back: its two results, the ghost member lists, and the
package-level variables after the call. -/
structure HashResult where
  dupePaths : List String
  err : Option Err
  members : List (List String)
  st : State

/-- The function `sameHash`. -/
def sameHash (fs : FS) (paths : List String) (st : State) : HashResult :=
  let st0 : State := { st with calls := st.calls ++ [paths] }
  match scan fs paths Locals.init st0 with
  | (l, st1, some err) =>
    { dupePaths := l.dupePaths, err := some err, members := l.members, st := st1 }
  | (l, st1, none) =>
    let r := render 0 l.dupes l st1
    { dupePaths := r.1.dupePaths, err := none, members := r.1.members, st := r.2 }

/-! ## The program -/

/-- The lines the program prints, one constructor per `fmt.Println` call site. -/
inductive Line where
  | missingArgument
  | walkError (root : String) (err : Err)
  | readError (len : Int)
  | noDuplicates
  | wastedSpace (kb : Int)
  | group (paths : String)
deriving DecidableEq

/-- The first loop of `main` (`for _, v := range args`). -/
def walkArgs (fs : FS) : List String → State → List Line → State × List Line
  | [], st, out => (st, out)
  | v :: vs, st, out =>
    match walk fs v st with
    | (st1, some err) => walkArgs fs vs st1 (out ++ [Line.walkError v err])
    | (st1, none) => walkArgs fs vs st1 out

/-- The variables live in the loop over `dupeLens` in `main`: the local `dupes`
(with its ghost member lists), the package-level variables, and the output so far. -/
structure Resolve where
  dupes : List String
  members : List (List String)
  st : State
  out : List Line

/-- The loop `for _, v := range dupeLens` of `main`. -/
def resolve (fs : FS) : List Int → Resolve → Resolve
  | [], r => r
  | v :: vs, r =>
    let h := sameHash fs (r.st.lens v) r.st
    match h.err with
    | some _ => resolve fs vs { r with st := h.st, out := r.out ++ [Line.readError v] }
    | none =>
      resolve fs vs
        { r with dupes := r.dupes ++ h.dupePaths, members := r.members ++ h.members, st := h.st }

/-- A finished run: printed lines, exit status, final package-level variables, and the
final value of the local `dupes` of `main` with its ghost member lists. -/
structure Run where
  out : List Line
  exit : Nat
  st : State
  dupes : List String
  members : List (List String)

/-- The function `main`, on the positional arguments `flag.Args()`. -/
def main (fs : FS) (args : List String) : Run :=
  if args.length < 1 then
    { out := [Line.missingArgument], exit := 1, st := State.init, dupes := [], members := [] }
  else
    let w := walkArgs fs args State.init []
    if w.1.dupeLens.length < 1 then
      { out := w.2 ++ [Line.noDuplicates], exit := 0, st := w.1, dupes := [], members := [] }
    else
      let r := resolve fs w.1.dupeLens { dupes := [], members := [], st := w.1, out := w.2 }
      if r.dupes.length < 1 then
        { out := r.out ++ [Line.noDuplicates], exit := 0, st := r.st,
          dupes := r.dupes, members := r.members }
      else
        { out := r.out ++ [Line.wastedSpace ((r.st.totalSz - r.st.dedupeSz).tdiv 1024)]
                  ++ r.dupes.map Line.group,
          exit := 0, st := r.st, dupes := r.dupes, members := r.members }

/-- The duplicate groups a run reports: the group lines of its output, in order. -/
def reported (out : List Line) : List String :=
  out.filterMap fun l => match l with
    | Line.group s => some s
    | _ => none

/-! ## Sample file systems -/

/-- A file system given by tables: per path the results of `os.Stat` and
`ioutil.ReadFile`, per root the entries of its walk. A path that is in no table does
not exist. -/
def FS.ofTables (files : List (String × Except Err Int × Except Err (List UInt8)))
    (roots : List (String × List Entry)) : FS where
  stat p :=
    match files.lookup p with
    | some f => f.1
    | none => .error "stat: no such file"
  readFile p :=
    match files.lookup p with
    | some f => f.2
    | none => .error "read: no such file"
  entries r :=
    match roots.lookup r with
    | some es => es
    | none => [⟨r, false, some "lstat: no such file"⟩]

/-- A regular file of the given content, for `FS.ofTables`. -/
def regular (p : String) (data : List UInt8) :
    String × Except Err Int × Except Err (List UInt8) :=
  (p, .ok (data.length : Int), .ok data)

/-- A file whose `os.Stat` succeeds with size `sz` and whose read fails. -/
def unreadable (p : String) (sz : Int) : String × Except Err Int × Except Err (List UInt8) :=
  (p, .ok sz, .error "read: permission denied")

/-- The walk of a directory `d` whose files are `ps`, without traversal errors. -/
def plainDir (d : String) (ps : List String) : String × List Entry :=
  (d, ⟨d, true, none⟩ :: ps.map fun p => ⟨p, false, none⟩)

/-- Scenario A of the specification: `a` and `b` hold the same 10 bytes, `c` holds 20. -/
def fsA : FS :=
  FS.ofTables
    [regular "a" (List.replicate 10 7), regular "b" (List.replicate 10 7),
      regular "c" (List.replicate 20 9)]
    [plainDir "d" ["a", "b", "c"]]

/-- Scenario B: `a` and `b` have the same length and different content. -/
def fsB : FS :=
  FS.ofTables
    [regular "a" (List.replicate 10 7), regular "b" (List.replicate 10 8)]
    [plainDir "d" ["a", "b"]]

/-- Scenario C: files of pairwise distinct lengths. -/
def fsC : FS :=
  FS.ofTables
    [regular "a" [1], regular "b" [1, 1], regular "c" [1, 1, 1]]
    [plainDir "d" ["a", "b", "c"]]

/-- Scenario D: three files with the same five bytes. -/
def fsD : FS :=
  FS.ofTables
    [regular "a" [1, 2, 3, 4, 5], regular "b" [1, 2, 3, 4, 5], regular "c" [1, 2, 3, 4, 5]]
    [plainDir "d" ["a", "b", "c"]]

/-- A read failure after a confirmed group: `a`, `b` hold the same 10 bytes, `c` has
size 10 and cannot be read; `e`, `f` hold the same 3 bytes. -/
def fsR : FS :=
  FS.ofTables
    [regular "a" (List.replicate 10 7), regular "b" (List.replicate 10 7), unreadable "c" 10,
      regular "e" [1, 2, 3], regular "f" [1, 2, 3]]
    [plainDir "d" ["a", "b", "c", "e", "f"]]

/-- Two groups in one bucket: `x1`, `x2` hold one content and `y1`, `y2` another of the
same length; the second `y` comes before the second `x`. -/
def fsO : FS :=
  FS.ofTables
    [regular "x1" [1, 2], regular "y1" [3, 4], regular "y2" [3, 4], regular "x2" [1, 2]]
    [plainDir "d" ["x1", "y1", "y2", "x2"]]

/-- A traversal error in the middle of a root: the walker hands `x` over with an
error, before the files `a` and `b`; a second root `e` holds `f` and `g`. -/
def fsW : FS :=
  FS.ofTables
    [regular "p" [1, 2], regular "a" [1, 2], regular "b" [1, 2], regular "f" [1, 2, 3],
      regular "g" [1, 2, 3]]
    [("d", [⟨"d", true, none⟩, ⟨"p", false, none⟩, ⟨"x", false, some "lstat x: permission denied"⟩,
        ⟨"a", false, none⟩, ⟨"b", false, none⟩]),
      plainDir "e" ["f", "g"]]

/-- A read failure after a confirmed group of large files: `a`, `b` hold the same 1100
bytes, `c` has size 1100 and cannot be read; `e`, `f` hold the same single byte. -/
def fsN : FS :=
  FS.ofTables
    [regular "a" (List.replicate 1100 7), regular "b" (List.replicate 1100 7),
      unreadable "c" 1100, regular "e" [1], regular "f" [1]]
    [plainDir "d" ["a", "b", "c", "e", "f"]]

/-- A stat failure in the middle of a root: `a` is indexed, then `os.Stat` fails on `s`,
which the walker had handed over without error; `b` comes after `s`. -/
def fsS : FS :=
  FS.ofTables
    [regular "a" [1, 2], ("s", .error "stat s: no such file", .error "open s: no such file"),
      regular "b" [1, 2]]
    [plainDir "d" ["a", "s", "b"]]

/-! ## Specification-level vocabulary -/

/-- The size `os.Stat` reports for `p` (0 when the query fails). -/
def statSize (fs : FS) (p : String) : Int :=
  match fs.stat p with
  | .ok sz => sz
  | .error _ => 0

/-- Whether `ioutil.ReadFile p` succeeds. -/
def readable (fs : FS) (p : String) : Bool :=
  match fs.readFile p with
  | .ok _ => true
  | .error _ => false

/-- The CRC-32 of the content of `p` (0 when the read fails). -/
def checksumOf (fs : FS) (p : String) : Nat :=
  match fs.readFile p with
  | .ok data => ChecksumIEEE data
  | .error _ => 0

/-- The content length `len(data)` of `p` (0 when the read fails). -/
def contentLen (fs : FS) (p : String) : Int :=
  match fs.readFile p with
  | .ok data => (data.length : Int)
  | .error _ => 0

/-- The elements of `xs`, in order, that are the second element with their key, where
the elements of `seen` count as earlier ones: `x` is kept exactly when one element
before it has the same key. -/
def secondsFrom {α κ : Type} [DecidableEq κ] (key : α → κ) : List α → List α → List α
  | _, [] => []
  | seen, x :: xs =>
    if seen.countP (fun y => key y = key x) = 1 then
      x :: secondsFrom key (seen ++ [x]) xs
    else
      secondsFrom key (seen ++ [x]) xs

/-- The elements of `xs`, in order, that are the second element of `xs` with their key. -/
def seconds {α κ : Type} [DecidableEq κ] (key : α → κ) (xs : List α) : List α :=
  secondsFrom key [] xs

/-- The paths one walk indexes: the files among `es` before the first entry at which
the callback returns an error (an entry error, or a failing `os.Stat`). The walk over
`es` leaves exactly these paths indexed (`Walk_walkFn`); they are all the files of `es`
when there is no such entry (`indexedBy_all`). -/
def indexedBy (fs : FS) : List Entry → List String
  | [] => []
  | e :: es =>
    if e.err.isSome then []
    else if e.isDir then indexedBy fs es
    else
      match fs.stat e.path with
      | .ok _ => e.path :: indexedBy fs es
      | .error _ => []

/-- The error one walk ends with, if any. -/
def walkErr (fs : FS) : List Entry → Option Err
  | [] => none
  | e :: es =>
    if e.err.isSome then e.err
    else if e.isDir then walkErr fs es
    else
      match fs.stat e.path with
      | .ok _ => walkErr fs es
      | .error err => some err

/-- The sequence of paths indexed by a run over the roots `args`. -/
def indexed (fs : FS) (args : List String) : List String :=
  args.flatMap fun r => indexedBy fs (fs.entries r)

/-- The duplicate groups of one size bucket, as member lists: none when a read in the
bucket fails; otherwise one checksum class per path that is the second with its
checksum, in the order of those second paths. -/
def groupsOf (fs : FS) (paths : List String) : List (List String) :=
  if paths.all (readable fs) then
    (seconds (checksumOf fs) paths).map fun x =>
      paths.filter fun p => checksumOf fs p = checksumOf fs x
  else []

/-- Feeding the paths `ps` to `sameLength` one after the other, keeping the state. -/
def indexAll (fs : FS) (ps : List String) (st : State) : State :=
  ps.foldl (fun s p => (sameLength fs p s).1) st

/-- The lines the first loop of `main` prints: one per root whose walk ends in an error. -/
def walkLines (fs : FS) (args : List String) : List Line :=
  args.filterMap fun r => (walkErr fs (fs.entries r)).map (Line.walkError r)

/-- The lines the loop over `dupeLens` prints: one per length whose bucket has a read
failure, in the order of `vs`. -/
def readLines (fs : FS) (lens : Int → List String) (vs : List Int) : List Line :=
  (vs.filter fun v => !(lens v).all (readable fs)).map Line.readError

/-- The size bucket of length `v` after indexing: the indexed paths of that size, in
discovery order. -/
def bucket (fs : FS) (args : List String) (v : Int) : List String :=
  (indexed fs args).filter fun p => statSize fs p = v

/-- The candidate lengths after indexing: the sizes of the indexed paths that are the
second of their size, in that order. -/
def candidates (fs : FS) (args : List String) : List Int :=
  (seconds (statSize fs) (indexed fs args)).map (statSize fs)

/-- The member lists of all groups of a run: bucket by bucket in candidate order. -/
def allGroups (fs : FS) (args : List String) : List (List String) :=
  (candidates fs args).flatMap fun v => groupsOf fs (bucket fs args v)

/-- The report printed from the state `r` the loop over `dupeLens` ends in. -/
def finish (r : Resolve) : Run :=
  if r.dupes.length < 1 then
    { out := r.out ++ [Line.noDuplicates], exit := 0, st := r.st,
      dupes := r.dupes, members := r.members }
  else
    { out := r.out ++ [Line.wastedSpace ((r.st.totalSz - r.st.dedupeSz).tdiv 1024)]
              ++ r.dupes.map Line.group,
      exit := 0, st := r.st, dupes := r.dupes, members := r.members }

/-- The state in which the loop over `dupeLens` starts. -/
def afterWalk (fs : FS) (args : List String) : Resolve :=
  { dupes := [], members := [],
    st := { State.init with lens := bucket fs args, dupeLens := candidates fs args },
    out := walkLines fs args }

/-- Whether position `i` of `xs` holds the second element with its key: exactly one
element before position `i` has the key of the element at `i`. -/
def secondAt {α κ : Type} [DecidableEq κ] (key : α → κ) (xs : List α) (i : Nat) : Bool :=
  match xs[i]? with
  | some x => decide ((xs.take i).countP (fun y => key y = key x) = 1)
  | none => false

/-- The positions of `xs`, in increasing order, that hold the second element with its key. -/
def secondPositions {α κ : Type} [DecidableEq κ] (key : α → κ) (xs : List α) : List Nat :=
  (List.range xs.length).filter (secondAt key xs)

/-- The report of one size bucket in the words of the claim: nothing when a read in the
bucket fails; otherwise one line per position that holds the second path with its
checksum, in increasing order of these positions, each line being the paths of the
bucket with that checksum joined with ", ". -/
def orderedGroups (fs : FS) (paths : List String) : List String :=
  if paths.all (readable fs) then
    (secondPositions (checksumOf fs) paths).filterMap fun i =>
      paths[i]?.map fun x =>
        String.intercalate ", " (paths.filter fun p => checksumOf fs p = checksumOf fs x)
  else []

/-- Whether the walker hands `e` over without error as a file of size `v`. -/
def isSized (fs : FS) (v : Int) (e : Entry) : Bool :=
  e.err.isNone && !e.isDir &&
    match fs.stat e.path with
    | .ok sz => sz == v
    | .error _ => false

/-- The file system without the files of size `v`: the walker no longer meets them. -/
def FS.withoutSize (fs : FS) (v : Int) : FS :=
  { fs with entries := fun r => (fs.entries r).filter fun e => !isSized fs v e }

/-- The content length `sameHash` records for a group (`dupesSz`): the length of the
content of its second member, the path at which the group was detected. -/
def recordedLen (fs : FS) (g : List String) : Int :=
  match g with
  | _ :: x :: _ => contentLen fs x
  | _ => 0

/-- What one `sameHash` call adds to `dedupeSz`: the content length of every path of the
bucket that is the second with its checksum and is read before the first read failure. -/
def confirmedLen (fs : FS) (paths : List String) : Int :=
  ((seconds (checksumOf fs) (paths.takeWhile (readable fs))).map (contentLen fs)).sum

/-! ## Lists: second occurrences -/

section Seconds

variable {α κ : Type} [DecidableEq κ] (key : α → κ)

theorem secondsFrom_sublist (seen xs : List α) : (secondsFrom key seen xs).Sublist xs := by
  induction xs generalizing seen with
  | nil => simp [secondsFrom]
  | cons x xs ih =>
    unfold secondsFrom
    split
    · exact (ih _).cons₂ x
    · exact (ih _).cons x

theorem mem_secondsFrom_key (k : κ) (seen xs : List α) :
    k ∈ (secondsFrom key seen xs).map key ↔
      seen.countP (fun y => key y = k) ≤ 1 ∧ 2 ≤ (seen ++ xs).countP (fun y => key y = k) := by
  induction xs generalizing seen with
  | nil => simp [secondsFrom]; omega
  | cons x xs ih =>
    unfold secondsFrom
    have hx := ih (seen ++ [x])
    simp only [List.append_assoc, List.singleton_append] at hx
    by_cases hk : key x = k
    · subst hk
      split
      · rename_i h1
        simp only [List.map_cons, List.mem_cons, true_or, true_iff]
        simp only [List.countP_append, List.countP_cons, List.countP_nil, decide_True, if_true, h1]
        omega
      · rename_i h1
        rw [hx]
        simp only [List.countP_append, List.countP_cons, List.countP_nil, decide_True, if_true]
        omega
    · have hk2 : ¬ k = key x := fun h => hk h.symm
      split
      · simp only [List.map_cons, List.mem_cons, hk2, false_or]
        rw [hx]
        simp [List.countP_append, List.countP_cons, hk]
      · rw [hx]
        simp [List.countP_append, List.countP_cons, hk]

theorem secondsFrom_nodup (seen xs : List α) : ((secondsFrom key seen xs).map key).Nodup := by
  induction xs generalizing seen with
  | nil => simp [secondsFrom]
  | cons x xs ih =>
    unfold secondsFrom
    split
    · rename_i h1
      rw [List.map_cons, List.nodup_cons]
      refine ⟨?_, ih _⟩
      rw [mem_secondsFrom_key]
      simp [List.countP_append, List.countP_cons, h1]
    · exact ih _

theorem secondsFrom_filter (Q : α → Bool) (hQ : ∀ a b, key a = key b → Q a = Q b)
    (seen xs : List α) :
    secondsFrom key (seen.filter Q) (xs.filter Q) = (secondsFrom key seen xs).filter Q := by
  induction xs generalizing seen with
  | nil => simp [secondsFrom]
  | cons x xs ih =>
    have hx := ih (seen ++ [x])
    by_cases hp : Q x = true
    · have hc : (seen.filter Q).countP (fun y => key y = key x) =
          seen.countP (fun y => key y = key x) := by
        rw [List.countP_filter]
        congr 1
        funext a
        by_cases ha : key a = key x
        · simp [ha, hQ a x ha, hp]
        · simp [ha]
      rw [List.filter_cons_of_pos hp]
      simp only [List.filter_append, List.filter_cons_of_pos hp, List.filter_nil] at hx
      unfold secondsFrom
      rw [hc]
      split
      · rw [List.filter_cons_of_pos hp, hx]
      · exact hx
    · rw [List.filter_cons_of_neg hp]
      simp only [List.filter_append, List.filter_cons_of_neg hp, List.filter_nil,
        List.append_nil] at hx
      rw [hx]
      conv_rhs => unfold secondsFrom
      split
      · rw [List.filter_cons_of_neg hp]
      · rfl

end Seconds

/-! ## The indexing phase -/

theorem statSize_of_ok {fs : FS} {p : String} {sz : Int} (h : fs.stat p = .ok sz) :
    statSize fs p = sz := by
  simp [statSize, h]

theorem sameLength_ok (fs : FS) (p : String) (st : State) (sz : Int) (h : fs.stat p = .ok sz) :
    sameLength fs p st =
      ({ st with
          lens := Function.update st.lens sz (st.lens sz ++ [p]),
          dupeLens := if (st.lens sz).length = 1 then st.dupeLens ++ [sz] else st.dupeLens },
        none) := by
  unfold sameLength
  rw [h]
  by_cases h1 : (st.lens sz).length = 1
  · simp [h1]
  · have h2 : ¬ (st.lens sz).length + 1 = 2 := by omega
    simp [h1, h2]

theorem sameLength_error (fs : FS) (p : String) (st : State) (err : Err)
    (h : fs.stat p = .error err) : sameLength fs p st = (st, some err) := by
  unfold sameLength
  rw [h]

theorem indexedBy_stat (fs : FS) (es : List Entry) :
    ∀ p ∈ indexedBy fs es, ∃ sz, fs.stat p = .ok sz := by
  induction es with
  | nil => simp [indexedBy]
  | cons e es ih =>
    intro p hp
    unfold indexedBy at hp
    split at hp
    · simp at hp
    · split at hp
      · exact ih p hp
      · split at hp
        · rename_i sz hsz
          rcases List.mem_cons.1 hp with h | h
          · exact ⟨sz, h ▸ hsz⟩
          · exact ih p h
        · simp at hp

theorem indexed_stat (fs : FS) (args : List String) :
    ∀ p ∈ indexed fs args, ∃ sz, fs.stat p = .ok sz := by
  intro p hp
  obtain ⟨r, _, hr⟩ := List.mem_flatMap.1 hp
  exact indexedBy_stat fs _ p hr

/-- When the walker reports no entry error and every `os.Stat` succeeds, a walk indexes
all files it is handed, in order. -/
theorem indexedBy_all (fs : FS) (es : List Entry) (hent : ∀ e ∈ es, e.err = none)
    (hstat : ∀ e ∈ es, e.isDir = false → ∃ sz, fs.stat e.path = .ok sz) :
    indexedBy fs es = (es.filter fun e => !e.isDir).map Entry.path := by
  induction es with
  | nil => rfl
  | cons e es ih =>
    have he := hent e (List.mem_cons_self _ _)
    have ih2 := ih (fun x hx => hent x (List.mem_cons_of_mem _ hx))
      (fun x hx => hstat x (List.mem_cons_of_mem _ hx))
    unfold indexedBy
    cases hd : e.isDir with
    | true => simp [he, hd, ih2]
    | false =>
      obtain ⟨sz, hsz⟩ := hstat e (List.mem_cons_self _ _) hd
      simp [he, hd, hsz, ih2]

theorem walkFn_err (fs : FS) (e : Entry) (st : State) (err : Err) (h : e.err = some err) :
    walkFn fs e st = (st, some err) := by
  simp [walkFn, h]

theorem walkFn_dir (fs : FS) (e : Entry) (st : State) (h : e.err = none) (hd : e.isDir = true) :
    walkFn fs e st = (st, none) := by
  simp [walkFn, h, hd]

theorem walkFn_file (fs : FS) (e : Entry) (st : State) (h : e.err = none)
    (hd : e.isDir = false) : walkFn fs e st = sameLength fs e.path st := by
  simp [walkFn, h, hd]

theorem Walk_walkFn (fs : FS) (es : List Entry) (st : State) :
    Walk (walkFn fs) es st = (indexAll fs (indexedBy fs es) st, walkErr fs es) := by
  induction es generalizing st with
  | nil => simp [Walk, indexedBy, walkErr, indexAll]
  | cons e es ih =>
    unfold Walk indexedBy walkErr
    cases he : e.err with
    | some err => simp [walkFn_err fs e st err he, indexAll]
    | none =>
      cases hd : e.isDir with
      | true => simpa [walkFn_dir fs e st he hd] using ih st
      | false =>
        rw [walkFn_file fs e st he hd]
        cases hs : fs.stat e.path with
        | error err => simp [sameLength_error fs _ st err hs, indexAll]
        | ok sz =>
          simp only [sameLength_ok fs _ st sz hs, ih]
          simp [indexAll, sameLength_ok fs _ st sz hs]

theorem indexAll_append (fs : FS) (ps qs : List String) (st : State) :
    indexAll fs (ps ++ qs) st = indexAll fs qs (indexAll fs ps st) := by
  simp [indexAll, List.foldl_append]

theorem walkArgs_eq (fs : FS) (args : List String) (st : State) (out : List Line) :
    walkArgs fs args st out = (indexAll fs (indexed fs args) st, out ++ walkLines fs args) := by
  induction args generalizing st out with
  | nil => simp [walkArgs, indexed, walkLines, indexAll]
  | cons r rs ih =>
    unfold walkArgs walk
    rw [Walk_walkFn]
    have hidx : indexed fs (r :: rs) = indexedBy fs (fs.entries r) ++ indexed fs rs := by
      simp [indexed]
    cases hw : walkErr fs (fs.entries r) with
    | some err =>
      simp only [ih, hidx, indexAll_append]
      simp [walkLines, hw]
    | none =>
      simp only [ih, hidx, indexAll_append]
      simp [walkLines, hw]

theorem indexAll_eq (fs : FS) (ps : List String) (hok : ∀ p ∈ ps, ∃ sz, fs.stat p = .ok sz)
    (seen : List String) (st : State)
    (hst : ∀ v, (st.lens v).length = seen.countP (fun p => statSize fs p = v)) :
    indexAll fs ps st =
      { st with
          lens := fun v => st.lens v ++ ps.filter (fun p => statSize fs p = v),
          dupeLens := st.dupeLens ++ (secondsFrom (statSize fs) seen ps).map (statSize fs) } := by
  induction ps generalizing seen st with
  | nil => simp [indexAll, secondsFrom]
  | cons p ps ih =>
    obtain ⟨sz, hsz⟩ := hok p (List.mem_cons_self _ _)
    have hps : ∀ q ∈ ps, ∃ sz, fs.stat q = .ok sz := fun q hq => hok q (List.mem_cons_of_mem _ hq)
    have hp : statSize fs p = sz := statSize_of_ok hsz
    subst hp
    have hstep : indexAll fs (p :: ps) st = indexAll fs ps (sameLength fs p st).1 := by
      simp [indexAll]
    rw [hstep, sameLength_ok fs p st _ hsz]
    rw [ih hps (seen ++ [p])]
    · have hcond : (st.lens (statSize fs p)).length = 1 ↔
          seen.countP (fun q => statSize fs q = statSize fs p) = 1 := by
        rw [hst]
      congr 1
      · funext v
        by_cases hv : v = statSize fs p
        · subst hv
          simp
        · have hv2 : ¬ statSize fs p = v := fun h => hv h.symm
          simp [Function.update_noteq hv, hv2]
      · conv_rhs => unfold secondsFrom
        by_cases h1 : (st.lens (statSize fs p)).length = 1
        · simp [h1, hcond.1 h1]
        · have h2 : ¬ seen.countP (fun q => statSize fs q = statSize fs p) = 1 :=
            fun h => h1 (hcond.2 h)
          simp [h1, h2]
    · intro v
      by_cases hv : v = statSize fs p
      · subst hv
        simp [hst, List.countP_append]
      · have hv2 : ¬ statSize fs p = v := fun h => hv h.symm
        simp [Function.update_noteq hv, hst, hv2, List.countP_append]

/-- The package-level variables when the first loop of `main` is over. -/
theorem walkArgs_state (fs : FS) (args : List String) :
    (walkArgs fs args State.init []).1 =
      { State.init with
          lens := fun v => (indexed fs args).filter (fun p => statSize fs p = v),
          dupeLens := (seconds (statSize fs) (indexed fs args)).map (statSize fs) } := by
  rw [walkArgs_eq, indexAll_eq fs _ (indexed_stat fs args) [] State.init (by simp [State.init])]
  simp [State.init, seconds]

/-! ## One bucket: the two loops of `sameHash` -/

theorem readable_iff {fs : FS} {p : String} :
    readable fs p = true ↔ ∃ data, fs.readFile p = .ok data := by
  unfold readable
  cases fs.readFile p <;> simp

theorem checksumOf_of_ok {fs : FS} {p : String} {data : List UInt8}
    (h : fs.readFile p = .ok data) : checksumOf fs p = ChecksumIEEE data := by
  simp [checksumOf, h]

theorem contentLen_of_ok {fs : FS} {p : String} {data : List UInt8}
    (h : fs.readFile p = .ok data) : contentLen fs p = (data.length : Int) := by
  simp [contentLen, h]

theorem scan_cons_ok (fs : FS) (p : String) (rest : List String) (l : Locals) (st : State)
    (data : List UInt8) (h : fs.readFile p = .ok data) :
    scan fs (p :: rest) l st =
      scan fs rest
        { l with
            hashes := Function.update l.hashes (checksumOf fs p) (l.hashes (checksumOf fs p) ++ [p]),
            dupes := if (l.hashes (checksumOf fs p)).length = 1
              then l.dupes ++ [checksumOf fs p] else l.dupes,
            dupesSz := if (l.hashes (checksumOf fs p)).length = 1
              then l.dupesSz ++ [contentLen fs p] else l.dupesSz }
        { st with
            dedupeSz := if (l.hashes (checksumOf fs p)).length = 1
              then st.dedupeSz + contentLen fs p else st.dedupeSz } := by
  rw [checksumOf_of_ok h, contentLen_of_ok h]
  conv_lhs => unfold scan
  rw [h]
  by_cases h1 : (l.hashes (ChecksumIEEE data)).length = 1
  · simp [h1]
  · have h2 : ¬ (l.hashes (ChecksumIEEE data)).length + 1 = 2 := by omega
    simp [h1, h2]

theorem scan_cons_error (fs : FS) (p : String) (rest : List String) (l : Locals) (st : State)
    (err : Err) (h : fs.readFile p = .error err) :
    scan fs (p :: rest) l st = (l, st, some err) := by
  conv_lhs => unfold scan
  rw [h]

/-- The first loop never touches `dupePaths`, and of the package-level variables it
changes `dedupeSz` only. -/
theorem scan_frame (fs : FS) (paths : List String) (l : Locals) (st : State) :
    (scan fs paths l st).1.dupePaths = l.dupePaths ∧
    (scan fs paths l st).1.members = l.members ∧
    (scan fs paths l st).2.1.lens = st.lens ∧
    (scan fs paths l st).2.1.dupeLens = st.dupeLens ∧
    (scan fs paths l st).2.1.totalSz = st.totalSz ∧
    (scan fs paths l st).2.1.calls = st.calls := by
  induction paths generalizing l st with
  | nil => simp [scan]
  | cons p rest ih =>
    cases h : fs.readFile p with
    | error err => simp [scan_cons_error fs p rest l st err h]
    | ok data =>
      rw [scan_cons_ok fs p rest l st data h]
      exact ih _ _

/-- The first loop ends without an error exactly when every path of the bucket is read. -/
theorem scan_err_none_iff (fs : FS) (paths : List String) (l : Locals) (st : State) :
    (scan fs paths l st).2.2 = none ↔ paths.all (readable fs) = true := by
  induction paths generalizing l st with
  | nil => simp [scan]
  | cons p rest ih =>
    cases h : fs.readFile p with
    | error err => simp [scan_cons_error fs p rest l st err h, readable, h]
    | ok data =>
      rw [scan_cons_ok fs p rest l st data h, ih]
      simp [readable, h]

theorem scan_ok (fs : FS) (paths : List String) (hr : ∀ p ∈ paths, readable fs p = true)
    (seen : List String) (l : Locals) (st : State)
    (hl : ∀ c, (l.hashes c).length = seen.countP (fun p => checksumOf fs p = c)) :
    scan fs paths l st =
      ({ l with
          hashes := fun c => l.hashes c ++ paths.filter (fun p => checksumOf fs p = c),
          dupes := l.dupes ++ (secondsFrom (checksumOf fs) seen paths).map (checksumOf fs),
          dupesSz := l.dupesSz ++ (secondsFrom (checksumOf fs) seen paths).map (contentLen fs) },
        { st with
          dedupeSz := st.dedupeSz +
            ((secondsFrom (checksumOf fs) seen paths).map (contentLen fs)).sum },
        none) := by
  induction paths generalizing seen l st with
  | nil => simp [scan, secondsFrom]
  | cons p rest ih =>
    obtain ⟨data, hd⟩ := readable_iff.1 (hr p (List.mem_cons_self _ _))
    have hrest : ∀ q ∈ rest, readable fs q = true := fun q hq => hr q (List.mem_cons_of_mem _ hq)
    rw [scan_cons_ok fs p rest l st data hd]
    rw [ih hrest (seen ++ [p])]
    · have hcond : (l.hashes (checksumOf fs p)).length = 1 ↔
          seen.countP (fun q => checksumOf fs q = checksumOf fs p) = 1 := by
        rw [hl]
      have hsec : secondsFrom (checksumOf fs) seen (p :: rest) =
          if seen.countP (fun q => checksumOf fs q = checksumOf fs p) = 1
          then p :: secondsFrom (checksumOf fs) (seen ++ [p]) rest
          else secondsFrom (checksumOf fs) (seen ++ [p]) rest := by
        conv_lhs => unfold secondsFrom
      rw [hsec]
      by_cases h1 : (l.hashes (checksumOf fs p)).length = 1
      · simp only [h1, hcond.1 h1, if_true]
        refine Prod.ext ?_ (Prod.ext ?_ rfl)
        · simp only [List.map_cons, List.append_assoc, List.singleton_append]
          congr 1
          funext c
          by_cases hc : c = checksumOf fs p
          · subst hc
            simp
          · have hc2 : ¬ checksumOf fs p = c := fun h => hc h.symm
            simp [Function.update_noteq hc, hc2]
        · simp only [List.map_cons, List.sum_cons]
          congr 1
          ring
      · have h2 : ¬ seen.countP (fun q => checksumOf fs q = checksumOf fs p) = 1 :=
          fun h => h1 (hcond.2 h)
        simp only [h1, h2, if_false]
        refine Prod.ext ?_ rfl
        simp only
        congr 1
        funext c
        by_cases hc : c = checksumOf fs p
        · subst hc
          simp
        · have hc2 : ¬ checksumOf fs p = c := fun h => hc h.symm
          simp [Function.update_noteq hc, hc2]
    · intro c
      by_cases hc : c = checksumOf fs p
      · subst hc
        simp [hl, List.countP_append]
      · have hc2 : ¬ checksumOf fs p = c := fun h => hc h.symm
        simp [Function.update_noteq hc, hl, hc2, List.countP_append]

theorem render_eq (vs : List Nat) (i : Nat) (l : Locals) (st : State) :
    render i vs l st =
      ({ l with
          dupePaths := l.dupePaths ++ vs.map (fun v => ", ".intercalate (l.hashes v)),
          members := l.members ++ vs.map l.hashes },
        { st with
          totalSz := st.totalSz +
            (List.zipWith (fun s v => s * ((l.hashes v).length : Int)) (l.dupesSz.drop i) vs).sum }) := by
  induction vs generalizing i l st with
  | nil => simp [render]
  | cons v vs ih =>
    unfold render
    rw [ih]
    refine Prod.ext ?_ ?_
    · simp
    · simp only
      congr 1
      by_cases hi : i < l.dupesSz.length
      · rw [List.drop_eq_getElem_cons hi]
        simp only [List.zipWith_cons_cons, List.sum_cons, List.drop_drop]
        rw [List.getD_eq_getElem _ _ hi, add_assoc]
      · have h1 : l.dupesSz.drop i = [] := List.drop_eq_nil_of_le (by omega)
        have h2 : l.dupesSz.drop (i + 1) = [] := List.drop_eq_nil_of_le (by omega)
        have h3 : l.dupesSz.getD i 0 = 0 := List.getD_eq_default _ _ (by omega)
        rw [h1, h2, h3]
        simp

theorem zipWith_diag {α β : Type} (f : α → α → β) (l : List α) :
    List.zipWith f l l = l.map fun a => f a a := by
  induction l with
  | nil => rfl
  | cons a l ih => simp [ih]

theorem sameHash_unfold (fs : FS) (paths : List String) (st : State) :
    sameHash fs paths st =
      match scan fs paths Locals.init { st with calls := st.calls ++ [paths] } with
      | (l, st1, some err) =>
        { dupePaths := l.dupePaths, err := some err, members := l.members, st := st1 }
      | (l, st1, none) =>
        { dupePaths := (render 0 l.dupes l st1).1.dupePaths, err := none,
          members := (render 0 l.dupes l st1).1.members, st := (render 0 l.dupes l st1).2 } :=
  rfl

/-- A bucket that is read without error: the results and the counters of `sameHash`. -/
theorem sameHash_ok (fs : FS) (paths : List String) (st : State)
    (hr : paths.all (readable fs) = true) :
    sameHash fs paths st =
      { dupePaths := (groupsOf fs paths).map (String.intercalate ", "),
        err := none,
        members := groupsOf fs paths,
        st := { st with
          calls := st.calls ++ [paths],
          dedupeSz := st.dedupeSz + ((seconds (checksumOf fs) paths).map (contentLen fs)).sum,
          totalSz := st.totalSz + ((seconds (checksumOf fs) paths).map fun x =>
            contentLen fs x *
              ((paths.filter fun p => checksumOf fs p = checksumOf fs x).length : Int)).sum } } := by
  have hr2 : ∀ p ∈ paths, readable fs p = true := by simpa using hr
  rw [sameHash_unfold, scan_ok fs paths hr2 [] Locals.init _ (by simp [Locals.init])]
  simp only [render_eq]
  simp only [groupsOf, hr, if_true, Locals.init, List.nil_append, List.drop_zero, seconds,
    List.map_map, List.zipWith_map, zipWith_diag]
  rfl

/-- A bucket with a read failure: `sameHash` returns the error and no group, and of the
package-level variables only `dedupeSz` (and the ghost log) may have changed. -/
theorem sameHash_error (fs : FS) (paths : List String) (st : State)
    (hr : ¬ paths.all (readable fs) = true) :
    ∃ err, (sameHash fs paths st).err = some err ∧
      (sameHash fs paths st).dupePaths = [] ∧
      (sameHash fs paths st).members = [] ∧
      (sameHash fs paths st).st.lens = st.lens ∧
      (sameHash fs paths st).st.dupeLens = st.dupeLens ∧
      (sameHash fs paths st).st.totalSz = st.totalSz ∧
      (sameHash fs paths st).st.calls = st.calls ++ [paths] := by
  have hf := scan_frame fs paths Locals.init { st with calls := st.calls ++ [paths] }
  have he := scan_err_none_iff fs paths Locals.init { st with calls := st.calls ++ [paths] }
  rw [sameHash_unfold]
  generalize scan fs paths Locals.init { st with calls := st.calls ++ [paths] } = res at hf he
  obtain ⟨l, st1, e⟩ := res
  cases e with
  | none => exact absurd (he.1 rfl) hr
  | some err =>
    obtain ⟨h1, h2, h3, h4, h5, h6⟩ := hf
    exact ⟨err, rfl, h1, h2, h3, h4, h5, h6⟩

theorem groupsOf_of_not_readable (fs : FS) (paths : List String)
    (hr : ¬ paths.all (readable fs) = true) : groupsOf fs paths = [] := by
  simp [groupsOf, hr]

theorem sameHash_members (fs : FS) (paths : List String) (st : State) :
    (sameHash fs paths st).members = groupsOf fs paths := by
  by_cases hr : paths.all (readable fs) = true
  · rw [sameHash_ok fs paths st hr]
  · obtain ⟨_, _, _, h, _⟩ := sameHash_error fs paths st hr
    rw [h, groupsOf_of_not_readable fs paths hr]

theorem sameHash_dupePaths (fs : FS) (paths : List String) (st : State) :
    (sameHash fs paths st).dupePaths = (groupsOf fs paths).map (String.intercalate ", ") := by
  by_cases hr : paths.all (readable fs) = true
  · rw [sameHash_ok fs paths st hr]
  · obtain ⟨_, _, h, _⟩ := sameHash_error fs paths st hr
    rw [h, groupsOf_of_not_readable fs paths hr, List.map_nil]

theorem sameHash_err_none_iff (fs : FS) (paths : List String) (st : State) :
    (sameHash fs paths st).err = none ↔ paths.all (readable fs) = true := by
  by_cases hr : paths.all (readable fs) = true
  · rw [sameHash_ok fs paths st hr]
    simp [hr]
  · obtain ⟨err, h, _⟩ := sameHash_error fs paths st hr
    simp [h, hr]

theorem sameHash_frame (fs : FS) (paths : List String) (st : State) :
    (sameHash fs paths st).st.lens = st.lens ∧
    (sameHash fs paths st).st.dupeLens = st.dupeLens ∧
    (sameHash fs paths st).st.calls = st.calls ++ [paths] := by
  by_cases hr : paths.all (readable fs) = true
  · rw [sameHash_ok fs paths st hr]
    exact ⟨rfl, rfl, rfl⟩
  · obtain ⟨_, _, _, _, h1, h2, _, h3⟩ := sameHash_error fs paths st hr
    exact ⟨h1, h2, h3⟩

/-! ## The loop over the candidate lengths -/

theorem resolve_cons_error (fs : FS) (v : Int) (vs : List Int) (r : Resolve) (err : Err)
    (h : (sameHash fs (r.st.lens v) r.st).err = some err) :
    resolve fs (v :: vs) r =
      resolve fs vs
        { r with st := (sameHash fs (r.st.lens v) r.st).st, out := r.out ++ [Line.readError v] } := by
  conv_lhs => unfold resolve
  simp only [h]

theorem resolve_cons_ok (fs : FS) (v : Int) (vs : List Int) (r : Resolve)
    (h : (sameHash fs (r.st.lens v) r.st).err = none) :
    resolve fs (v :: vs) r =
      resolve fs vs
        { r with dupes := r.dupes ++ (sameHash fs (r.st.lens v) r.st).dupePaths,
                 members := r.members ++ (sameHash fs (r.st.lens v) r.st).members,
                 st := (sameHash fs (r.st.lens v) r.st).st } := by
  conv_lhs => unfold resolve
  simp only [h]

theorem resolve_eq (fs : FS) (vs : List Int) (r : Resolve) :
    (resolve fs vs r).members = r.members ++ vs.flatMap (fun v => groupsOf fs (r.st.lens v)) ∧
    (resolve fs vs r).dupes = r.dupes ++
      (vs.flatMap fun v => groupsOf fs (r.st.lens v)).map (String.intercalate ", ") ∧
    (resolve fs vs r).out = r.out ++ readLines fs r.st.lens vs ∧
    (resolve fs vs r).st.lens = r.st.lens ∧
    (resolve fs vs r).st.dupeLens = r.st.dupeLens ∧
    (resolve fs vs r).st.calls = r.st.calls ++ vs.map r.st.lens := by
  induction vs generalizing r with
  | nil => simp [resolve, readLines]
  | cons v vs ih =>
    obtain ⟨hl, hd, hc⟩ := sameHash_frame fs (r.st.lens v) r.st
    have hm := sameHash_members fs (r.st.lens v) r.st
    have hp := sameHash_dupePaths fs (r.st.lens v) r.st
    have he := sameHash_err_none_iff fs (r.st.lens v) r.st
    cases herr : (sameHash fs (r.st.lens v) r.st).err with
    | some err =>
      rw [resolve_cons_error fs v vs r err herr]
      have hr : ¬ (r.st.lens v).all (readable fs) = true := by
        intro h
        rw [he.2 h] at herr
        cases herr
      obtain ⟨i1, i2, i3, i4, i5, i6⟩ :=
        ih { r with st := (sameHash fs (r.st.lens v) r.st).st, out := r.out ++ [Line.readError v] }
      simp only [i1, i2, i3, i4, i5, i6]
      simp [hl, hd, hc, readLines, hr, groupsOf_of_not_readable fs _ hr]
    | none =>
      rw [resolve_cons_ok fs v vs r herr]
      have hr : (r.st.lens v).all (readable fs) = true := he.1 herr
      obtain ⟨i1, i2, i3, i4, i5, i6⟩ :=
        ih { r with dupes := r.dupes ++ (sameHash fs (r.st.lens v) r.st).dupePaths,
                    members := r.members ++ (sameHash fs (r.st.lens v) r.st).members,
                    st := (sameHash fs (r.st.lens v) r.st).st }
      simp only [i1, i2, i3, i4, i5, i6]
      simp [hl, hd, hc, hm, hp, readLines, hr]

/-! ## The whole run -/

theorem main_of_ne (fs : FS) (args : List String) (h : args ≠ []) :
    main fs args = finish (resolve fs (candidates fs args) (afterWalk fs args)) := by
  have hlen : ¬ args.length < 1 := by
    cases args with
    | nil => exact absurd rfl h
    | cons a as => simp
  have hw1 : (walkArgs fs args State.init []).1 = (afterWalk fs args).st := by
    rw [walkArgs_state]
    rfl
  have hw2 : (walkArgs fs args State.init []).2 = walkLines fs args := by
    rw [walkArgs_eq]
    simp
  unfold main
  simp only [hlen, if_false, hw1, hw2]
  by_cases hc : (candidates fs args).length < 1
  · have hnil : candidates fs args = [] := List.length_eq_zero.1 (by omega)
    have h1 : (afterWalk fs args).st.dupeLens.length < 1 := hc
    simp only [h1, if_true, hnil, resolve, finish]
    simp [afterWalk]
  · have h1 : ¬ (afterWalk fs args).st.dupeLens.length < 1 := hc
    simp only [h1, if_false]
    rfl

theorem main_nil (fs : FS) :
    main fs [] =
      { out := [Line.missingArgument], exit := 1, st := State.init, dupes := [], members := [] } := by
  simp [main]

theorem indexed_nil (fs : FS) : indexed fs [] = [] := rfl

theorem main_members (fs : FS) (args : List String) :
    (main fs args).members = allGroups fs args := by
  by_cases h : args = []
  · subst h
    simp [main_nil, allGroups, candidates, indexed_nil, seconds, secondsFrom]
  · rw [main_of_ne fs args h]
    have hm := (resolve_eq fs (candidates fs args) (afterWalk fs args)).1
    unfold finish
    split <;> simpa [afterWalk, allGroups, bucket] using hm

theorem main_dupes (fs : FS) (args : List String) :
    (main fs args).dupes = (allGroups fs args).map (String.intercalate ", ") := by
  by_cases h : args = []
  · subst h
    simp [main_nil, allGroups, candidates, indexed_nil, seconds, secondsFrom]
  · rw [main_of_ne fs args h]
    have hm := (resolve_eq fs (candidates fs args) (afterWalk fs args)).2.1
    unfold finish
    split <;> simpa [afterWalk, allGroups, bucket] using hm

theorem main_lens (fs : FS) (args : List String) : (main fs args).st.lens = bucket fs args := by
  by_cases h : args = []
  · subst h
    funext v
    simp [main_nil, State.init, bucket, indexed_nil]
  · rw [main_of_ne fs args h]
    have hm := (resolve_eq fs (candidates fs args) (afterWalk fs args)).2.2.2.1
    unfold finish
    split <;> simpa [afterWalk] using hm

theorem main_dupeLens (fs : FS) (args : List String) :
    (main fs args).st.dupeLens = candidates fs args := by
  by_cases h : args = []
  · subst h
    simp [main_nil, State.init, candidates, indexed_nil, seconds, secondsFrom]
  · rw [main_of_ne fs args h]
    have hm := (resolve_eq fs (candidates fs args) (afterWalk fs args)).2.2.2.2.1
    unfold finish
    split <;> simpa [afterWalk] using hm

theorem main_calls (fs : FS) (args : List String) :
    (main fs args).st.calls = (candidates fs args).map (bucket fs args) := by
  by_cases h : args = []
  · subst h
    simp [main_nil, State.init, candidates, indexed_nil, seconds, secondsFrom]
  · rw [main_of_ne fs args h]
    have hm := (resolve_eq fs (candidates fs args) (afterWalk fs args)).2.2.2.2.2
    unfold finish
    split <;> simpa [afterWalk, State.init] using hm

theorem reported_append (xs ys : List Line) : reported (xs ++ ys) = reported xs ++ reported ys := by
  simp [reported, List.filterMap_append]

theorem reported_walkLines (fs : FS) (args : List String) : reported (walkLines fs args) = [] := by
  unfold reported walkLines
  rw [List.filterMap_eq_nil_iff]
  intro l hl
  obtain ⟨r, _, hr⟩ := List.mem_filterMap.1 hl
  cases hw : walkErr fs (fs.entries r) with
  | none => simp [hw] at hr
  | some err =>
    simp only [hw, Option.map_some', Option.some.injEq] at hr
    subst hr
    rfl

theorem reported_readLines (fs : FS) (lens : Int → List String) (vs : List Int) :
    reported (readLines fs lens vs) = [] := by
  unfold reported readLines
  rw [List.filterMap_eq_nil_iff]
  intro l hl
  obtain ⟨v, _, hv⟩ := List.mem_map.1 hl
  subst hv
  rfl

theorem reported_groups (gs : List String) : reported (gs.map Line.group) = gs := by
  induction gs with
  | nil => rfl
  | cons g gs ih =>
    simp only [reported, List.map_cons, List.filterMap_cons] at ih ⊢
    rw [ih]

/-- The printed lines of a run with at least one root. -/
theorem main_out (fs : FS) (args : List String) (h : args ≠ []) :
    (main fs args).out =
      walkLines fs args ++ readLines fs (bucket fs args) (candidates fs args) ++
        if (main fs args).dupes.length < 1 then [Line.noDuplicates]
        else Line.wastedSpace (((main fs args).st.totalSz - (main fs args).st.dedupeSz).tdiv 1024)
          :: (main fs args).dupes.map Line.group := by
  rw [main_of_ne fs args h]
  have hm := (resolve_eq fs (candidates fs args) (afterWalk fs args)).2.2.1
  unfold finish
  split
  · rename_i h1
    simp only [h1, if_true, hm]
    simp [afterWalk]
  · rename_i h1
    simp only [h1, if_false, hm]
    simp [afterWalk]

/-- The group lines of the output are the local `dupes` of `main`, in order. -/
theorem main_reported (fs : FS) (args : List String) :
    reported (main fs args).out = (main fs args).dupes := by
  by_cases h : args = []
  · subst h
    simp [main_nil, reported]
  · rw [main_out fs args h]
    simp only [reported_append, reported_walkLines, reported_readLines, List.nil_append]
    split
    · rename_i h1
      have : (main fs args).dupes = [] := List.length_eq_zero.1 (by omega)
      rw [this]
      rfl
    · have : ∀ (l : Line) (ls : List Line), l :: ls = [l] ++ ls := fun _ _ => rfl
      rw [this, reported_append, reported_groups]
      rfl

/-! ## Groups: membership and disjointness -/

theorem pair_sublist {α : Type} (l : List α) (i j : Nat) (p q : α) (hij : i < j)
    (hp : l[i]? = some p) (hq : l[j]? = some q) : [p, q].Sublist l := by
  induction l generalizing i j with
  | nil => simp at hp
  | cons x xs ih =>
    cases j with
    | zero => omega
    | succ j =>
      rw [List.getElem?_cons_succ] at hq
      cases i with
      | zero =>
        rw [List.getElem?_cons_zero] at hp
        cases hp
        exact (List.singleton_sublist.2 (List.getElem?_mem hq)).cons₂ _
      | succ i =>
        rw [List.getElem?_cons_succ] at hp
        exact (ih i j (by omega) hp hq).cons _

theorem mem_bucket {fs : FS} {args : List String} {v : Int} {p : String} :
    p ∈ bucket fs args v ↔ p ∈ indexed fs args ∧ statSize fs p = v := by
  simp [bucket, List.mem_filter]

theorem mem_candidates {fs : FS} {args : List String} {v : Int} :
    v ∈ candidates fs args ↔ 2 ≤ (bucket fs args v).length := by
  unfold candidates seconds bucket
  rw [mem_secondsFrom_key, ← List.countP_eq_length_filter]
  simp

theorem candidates_nodup (fs : FS) (args : List String) : (candidates fs args).Nodup :=
  secondsFrom_nodup (statSize fs) [] (indexed fs args)

/-- Every group of a bucket is a checksum class of the bucket, the bucket was read
without error, and the class has at least two members. -/
theorem mem_groupsOf {fs : FS} {paths g : List String} (hg : g ∈ groupsOf fs paths) :
    paths.all (readable fs) = true ∧
      ∃ c, g = paths.filter (fun p => checksumOf fs p = c) ∧ 2 ≤ g.length := by
  unfold groupsOf at hg
  split at hg
  · rename_i hr
    refine ⟨hr, ?_⟩
    obtain ⟨x, hx, rfl⟩ := List.mem_map.1 hg
    refine ⟨checksumOf fs x, rfl, ?_⟩
    have hm : checksumOf fs x ∈ (secondsFrom (checksumOf fs) [] paths).map (checksumOf fs) :=
      List.mem_map_of_mem _ hx
    rw [mem_secondsFrom_key] at hm
    rw [← List.countP_eq_length_filter]
    simpa using hm.2
  · simp at hg

/-- A checksum shared by two positions of a bucket that is read without error has its
class among the groups of the bucket. -/
theorem class_mem_groupsOf {fs : FS} {paths : List String} (hr : paths.all (readable fs) = true)
    (c : Nat) (h2 : 2 ≤ (paths.filter fun p => checksumOf fs p = c).length) :
    (paths.filter fun p => checksumOf fs p = c) ∈ groupsOf fs paths := by
  have hm : c ∈ (secondsFrom (checksumOf fs) [] paths).map (checksumOf fs) := by
    rw [mem_secondsFrom_key, ← List.countP_eq_length_filter] at *
    simpa using h2
  obtain ⟨x, hx, hxc⟩ := List.mem_map.1 hm
  unfold groupsOf
  rw [if_pos hr]
  exact List.mem_map.2 ⟨x, hx, by rw [hxc]⟩

theorem groupsOf_pairwise_disjoint (fs : FS) (paths : List String) :
    (groupsOf fs paths).Pairwise List.Disjoint := by
  unfold groupsOf
  split
  · rw [List.pairwise_map]
    have hn := secondsFrom_nodup (checksumOf fs) [] paths
    unfold List.Nodup at hn
    rw [List.pairwise_map] at hn
    refine hn.imp ?_
    intro a b hab
    rw [List.disjoint_left]
    intro x hxa hxb
    have h1 := (List.mem_filter.1 hxa).2
    have h2 := (List.mem_filter.1 hxb).2
    simp only [decide_eq_true_eq] at h1 h2
    exact hab (h1.symm.trans h2)
  · exact List.Pairwise.nil

theorem allGroups_pairwise_disjoint (fs : FS) (args : List String) :
    (allGroups fs args).Pairwise List.Disjoint := by
  unfold allGroups
  rw [List.pairwise_flatMap]
  refine ⟨fun v _ => groupsOf_pairwise_disjoint fs _, ?_⟩
  have hn := candidates_nodup fs args
  refine hn.imp ?_
  intro v w hvw g hg g' hg'
  rw [List.disjoint_left]
  intro x hx hx'
  obtain ⟨_, c, hc, _⟩ := mem_groupsOf hg
  obtain ⟨_, c', hc', _⟩ := mem_groupsOf hg'
  rw [hc] at hx
  rw [hc'] at hx'
  have h1 := (mem_bucket.1 (List.mem_filter.1 hx).1).2
  have h2 := (mem_bucket.1 (List.mem_filter.1 hx').1).2
  exact hvw (h1.symm.trans h2)

theorem index_unique_of_disjoint {α : Type} {l : List (List α)}
    (h : l.Pairwise List.Disjoint) {k k' : Nat} {g g' : List α} {x : α}
    (hk : l[k]? = some g) (hk' : l[k']? = some g') (hx : x ∈ g) (hx' : x ∈ g') : k' = k := by
  obtain ⟨h1, e1⟩ := List.getElem?_eq_some.1 hk
  obtain ⟨h2, e2⟩ := List.getElem?_eq_some.1 hk'
  rw [List.pairwise_iff_getElem] at h
  rcases Nat.lt_trichotomy k k' with hlt | heq | hgt
  · have := h k k' h1 h2 hlt
    rw [e1, e2] at this
    exact absurd hx' (List.disjoint_left.1 this hx)
  · exact heq.symm
  · have := h k' k h2 h1 hgt
    rw [e1, e2] at this
    exact absurd hx (List.disjoint_left.1 this hx')

/-- Two positions of the indexed sequence with the same size and the same checksum,
in a bucket that is read without error, lie in one group of the run. -/
theorem pair_in_group (fs : FS) (args : List String) (p q : String)
    (hsub : [p, q].Sublist (indexed fs args))
    (hread : (bucket fs args (statSize fs p)).all (readable fs) = true)
    (hsize : statSize fs p = statSize fs q) (hsum : checksumOf fs p = checksumOf fs q) :
    ∃ g ∈ allGroups fs args, p ∈ g ∧ q ∈ g := by
  have hb : [p, q].Sublist (bucket fs args (statSize fs p)) := by
    have := hsub.filter (fun x => decide (statSize fs x = statSize fs p))
    simpa [bucket, hsize] using this
  have hc : [p, q].Sublist
      ((bucket fs args (statSize fs p)).filter fun x => checksumOf fs x = checksumOf fs p) := by
    have := hb.filter (fun x => decide (checksumOf fs x = checksumOf fs p))
    simpa [hsum] using this
  have hv : statSize fs p ∈ candidates fs args := mem_candidates.2 hb.length_le
  refine ⟨_, List.mem_flatMap.2 ⟨_, hv, class_mem_groupsOf hread _ hc.length_le⟩, ?_, ?_⟩
  · exact hc.subset (by simp)
  · exact hc.subset (by simp)

/-! ## Claims -/

set_option maxRecDepth 100000

/-- The check value of CRC-32/IEEE: the checksum of the ASCII digits "123456789". -/
theorem ChecksumIEEE_check : ChecksumIEEE [49, 50, 51, 52, 53, 54, 55, 56, 57] = 0xCBF43926 := by
  decide

/-- Scenario A: one group `a, b` and 0 kb. -/
theorem scenario_A :
    (main fsA ["d"]).out = [Line.wastedSpace 0, Line.group "a, b"] ∧
    (main fsA ["d"]).st.totalSz = 20 ∧ (main fsA ["d"]).st.dedupeSz = 10 := by
  decide

/-- Scenario B: same length, different content. -/
theorem scenario_B : (main fsB ["d"]).out = [Line.noDuplicates] := by
  decide

/-- Scenario C: pairwise distinct lengths. -/
theorem scenario_C : (main fsC ["d"]).out = [Line.noDuplicates] := by
  decide

/-- Scenario D: three equal files give one group of three. -/
theorem scenario_D :
    (main fsD ["d"]).out = [Line.wastedSpace 0, Line.group "a, b, c"] ∧
    (main fsD ["d"]).st.totalSz = 15 ∧ (main fsD ["d"]).st.dedupeSz = 5 := by
  decide

/-- Scenario E: a root that cannot be walked is reported and the other root is scanned. -/
theorem scenario_E :
    (main fsA ["nowhere", "d"]).out =
      [Line.walkError "nowhere" "lstat: no such file", Line.wastedSpace 0, Line.group "a, b"] ∧
    (main fsA ["nowhere", "d"]).exit = 0 := by
  decide

/-- Without arguments the program prints the usage error and exits with status 1. -/
theorem no_arguments (fs : FS) :
    (main fs []).out = [Line.missingArgument] ∧ (main fs []).exit = 1 := by
  simp [main_nil]

/-- Two groups in one bucket are listed in the order of their second members. -/
theorem two_groups_in_order :
    (main fsO ["d"]).st.lens 2 = ["x1", "y1", "y2", "x2"] ∧
    secondPositions (checksumOf fsO) ["x1", "y1", "y2", "x2"] = [2, 3] ∧
    orderedGroups fsO ["x1", "y1", "y2", "x2"] = ["y1, y2", "x1, x2"] ∧
    (main fsO ["d"]).out = [Line.wastedSpace 0, Line.group "y1, y2", Line.group "x1, x2"] := by
  decide

/-- C1. Completeness of detection: in a run all of whose reads succeed, two positions
`i ≠ j` of the sequence of walked (indexed) paths that hold files of the same size and
the same content lie in one reported group, and in no reported group at another
position; the reported group strings are the member lists joined with ", ". -/
theorem C1_completeness (fs : FS) (args : List String)
    (hread : ∀ x ∈ indexed fs args, readable fs x = true)
    (i j : Nat) (p q : String) (hij : i ≠ j)
    (hp : (indexed fs args)[i]? = some p) (hq : (indexed fs args)[j]? = some q)
    (hsize : fs.stat p = fs.stat q) (hcontent : fs.readFile p = fs.readFile q) :
    reported (main fs args).out = (main fs args).members.map (String.intercalate ", ") ∧
    ∃ k g, (main fs args).members[k]? = some g ∧ p ∈ g ∧ q ∈ g ∧
      ∀ (k' : Nat) (g' : List String), (main fs args).members[k']? = some g' → (p ∈ g' ∨ q ∈ g') → k' = k := by
  refine ⟨by rw [main_reported, main_dupes, main_members], ?_⟩
  rw [main_members]
  have hs : statSize fs p = statSize fs q := by simp [statSize, hsize]
  have hc : checksumOf fs p = checksumOf fs q := by simp [checksumOf, hcontent]
  have hrb : (bucket fs args (statSize fs p)).all (readable fs) = true :=
    List.all_eq_true.2 fun x hx => hread x (mem_bucket.1 hx).1
  have key : ∃ g ∈ allGroups fs args, p ∈ g ∧ q ∈ g := by
    rcases Nat.lt_or_gt_of_ne hij with hlt | hgt
    · exact pair_in_group fs args p q (pair_sublist _ i j p q hlt hp hq) hrb hs hc
    · obtain ⟨g, hg, h1, h2⟩ := pair_in_group fs args q p (pair_sublist _ j i q p hgt hq hp)
        (hs ▸ hrb) hs.symm hc.symm
      exact ⟨g, hg, h2, h1⟩
  obtain ⟨g, hg, hpg, hqg⟩ := key
  obtain ⟨k, hk⟩ := List.mem_iff_getElem?.1 hg
  refine ⟨k, g, hk, hpg, hqg, ?_⟩
  intro k' g' hk' hor
  rcases hor with h | h
  · exact index_unique_of_disjoint (allGroups_pairwise_disjoint fs args) hk hk' hpg h
  · exact index_unique_of_disjoint (allGroups_pairwise_disjoint fs args) hk hk' hqg h

theorem C1_completeness_witness :
    (indexed fsA ["d"])[0]? = some "a" ∧ (indexed fsA ["d"])[1]? = some "b" ∧
    ∃ k g, (main fsA ["d"]).members[k]? = some g ∧ "a" ∈ g ∧ "b" ∈ g ∧
      ∀ (k' : Nat) (g' : List String), (main fsA ["d"]).members[k']? = some g' → ("a" ∈ g' ∨ "b" ∈ g') → k' = k :=
  ⟨by decide, by decide,
    (C1_completeness fsA ["d"] (by decide) 0 1 "a" "b" (by decide) (by decide) (by decide)
      rfl rfl).2⟩

/-- C2. Soundness of detection: in every run, two paths listed in the same reported
group have the same `os.Stat` size and both are read with the same CRC-32 checksum; so
two files whose checksums differ are never members of one group. The reported group
strings are the member lists joined with ", ". -/
theorem C2_soundness (fs : FS) (args : List String) (g : List String)
    (hg : g ∈ (main fs args).members) (p q : String) (hp : p ∈ g) (hq : q ∈ g) :
    reported (main fs args).out = (main fs args).members.map (String.intercalate ", ") ∧
    (∃ sz, fs.stat p = .ok sz ∧ fs.stat q = .ok sz) ∧
    (∃ dp dq, fs.readFile p = .ok dp ∧ fs.readFile q = .ok dq ∧
      ChecksumIEEE dp = ChecksumIEEE dq) ∧
    ∀ dp dq, fs.readFile p = .ok dp → fs.readFile q = .ok dq →
      ¬ ChecksumIEEE dp ≠ ChecksumIEEE dq := by
  refine ⟨by rw [main_reported, main_dupes, main_members], ?_⟩
  rw [main_members] at hg
  obtain ⟨v, _, hgv⟩ := List.mem_flatMap.1 hg
  obtain ⟨hr, c, hc, _⟩ := mem_groupsOf hgv
  rw [hc] at hp hq
  obtain ⟨hpb, hpc⟩ := List.mem_filter.1 hp
  obtain ⟨hqb, hqc⟩ := List.mem_filter.1 hq
  simp only [decide_eq_true_eq] at hpc hqc
  obtain ⟨hpi, hpv⟩ := mem_bucket.1 hpb
  obtain ⟨hqi, hqv⟩ := mem_bucket.1 hqb
  obtain ⟨sp, hsp⟩ := indexed_stat fs args p hpi
  obtain ⟨sq, hsq⟩ := indexed_stat fs args q hqi
  obtain ⟨dp, hdp⟩ := readable_iff.1 (List.all_eq_true.1 hr p hpb)
  obtain ⟨dq, hdq⟩ := readable_iff.1 (List.all_eq_true.1 hr q hqb)
  have hsum : ChecksumIEEE dp = ChecksumIEEE dq := by
    rw [← checksumOf_of_ok hdp, ← checksumOf_of_ok hdq, hpc, hqc]
  refine ⟨⟨v, ?_, ?_⟩, ⟨dp, dq, hdp, hdq, hsum⟩, ?_⟩
  · rw [hsp, ← statSize_of_ok hsp, hpv]
  · rw [hsq, ← statSize_of_ok hsq, hqv]
  · intro dp' dq' h1 h2 hne
    rw [hdp] at h1
    rw [hdq] at h2
    cases h1
    cases h2
    exact hne hsum

theorem C2_soundness_witness :
    ["a", "b"] ∈ (main fsA ["d"]).members ∧
    (∃ sz, fsA.stat "a" = .ok sz ∧ fsA.stat "b" = .ok sz) ∧
    ∃ dp dq, fsA.readFile "a" = .ok dp ∧ fsA.readFile "b" = .ok dq ∧
      ChecksumIEEE dp = ChecksumIEEE dq :=
  ⟨by decide,
    (C2_soundness fsA ["d"] ["a", "b"] (by decide) "a" "b" (by decide) (by decide)).2.1,
    (C2_soundness fsA ["d"] ["a", "b"] (by decide) "a" "b" (by decide) (by decide)).2.2.1⟩

/-- C3, against the claim. The root `d` of scenario C is given twice on the command
line. The walked files are `a`, `b` and `c`, of lengths 1, 2 and 3: any two different
files among them have different lengths. Yet every file is walked twice, so every
bucket reaches two entries: all three lengths become candidates, `sameHash` is called
three times, and the program reports groups instead of "No duplicates detected". -/
theorem C3_counterexample :
    (∀ p ∈ indexed fsC ["d", "d"], ∀ q ∈ indexed fsC ["d", "d"],
      p ≠ q → statSize fsC p ≠ statSize fsC q) ∧
    (main fsC ["d", "d"]).st.dupeLens = [1, 2, 3] ∧
    (main fsC ["d", "d"]).st.calls = [["a", "a"], ["b", "b"], ["c", "c"]] ∧
    Line.noDuplicates ∉ (main fsC ["d", "d"]).out := by
  decide

/-- C3, amended. In a run with at least one directory argument in which no path is
walked (indexed) more than once and any two different walked files have different
`os.Stat` results, no length becomes a candidate (`dupeLens` stays empty), `sameHash`
is never called, and after the lines for failed walks the program prints
"No duplicates detected" and nothing else. -/
theorem C3_distinct_lengths (fs : FS) (args : List String) (hargs : args ≠ [])
    (honce : (indexed fs args).Nodup)
    (hlen : ∀ p ∈ indexed fs args, ∀ q ∈ indexed fs args, fs.stat p = fs.stat q → p = q) :
    (main fs args).st.dupeLens = [] ∧ (main fs args).st.calls = [] ∧
    (main fs args).out = walkLines fs args ++ [Line.noDuplicates] ∧
    (main fs args).exit = 0 := by
  have hd : ((indexed fs args).map (statSize fs)).Nodup := by
    refine List.Nodup.map_on ?_ honce
    intro p hp q hq hpq
    obtain ⟨sp, hsp⟩ := indexed_stat fs args p hp
    obtain ⟨sq, hsq⟩ := indexed_stat fs args q hq
    apply hlen p hp q hq
    rw [hsp, hsq, ← statSize_of_ok hsp, ← statSize_of_ok hsq, hpq]
  have hc : candidates fs args = [] := by
    rw [List.eq_nil_iff_forall_not_mem]
    intro v hv
    have h2 := mem_candidates.1 hv
    have h1 := List.nodup_iff_count_le_one.1 hd v
    rw [List.count, List.countP_map, List.countP_eq_length_filter] at h1
    have : (bucket fs args v) =
        List.filter ((fun x => x == v) ∘ statSize fs) (indexed fs args) := by
      unfold bucket
      congr 1
    rw [this] at h2
    omega
  have hdup : (main fs args).dupes = [] := by
    rw [main_dupes, allGroups, hc]
    rfl
  refine ⟨by rw [main_dupeLens, hc], by rw [main_calls, hc]; rfl, ?_, ?_⟩
  · rw [main_out fs args hargs, hdup, hc]
    simp [readLines]
  · rw [main_of_ne fs args hargs]
    unfold finish
    split <;> rfl

theorem C3_distinct_lengths_witness :
    (indexed fsC ["d"]).Nodup ∧
    (indexed fsC ["d"]).map (statSize fsC) = [1, 2, 3] ∧
    (main fsC ["d"]).st.dupeLens = [] ∧ (main fsC ["d"]).st.calls = [] ∧
    (main fsC ["d"]).out = walkLines fsC ["d"] ++ [Line.noDuplicates] ∧
    (main fsC ["d"]).exit = 0 :=
  ⟨by decide, by decide,
    C3_distinct_lengths fsC ["d"] (by decide) (by decide) (by
      intro p hp q hq h
      have hp2 : p = "a" ∨ p = "b" ∨ p = "c" := by simpa [indexed, indexedBy, fsC, FS.ofTables,
        plainDir, regular, List.lookup] using hp
      have hq2 : q = "a" ∨ q = "b" ∨ q = "c" := by simpa [indexed, indexedBy, fsC, FS.ofTables,
        plainDir, regular, List.lookup] using hq
      rcases hp2 with rfl | rfl | rfl <;> rcases hq2 with rfl | rfl | rfl <;>
        first | rfl | (exfalso; revert h; simp [fsC, FS.ofTables, regular, List.lookup]))⟩

/-- C4. Wasted-space accounting at a run with a read failure. In `fsR` the bucket of
length 10 is `a, b, c`: `a` and `b` are confirmed as a group (`dedupeSz += 10`), then
the read of `c` fails and `sameHash` returns before its second loop, so `totalSz` gets
nothing for that group and the group is not reported. The run ends with the single
reported group `e, f` (3 bytes each), `totalSz = 6` and `dedupeSz = 13`: `dedupeSz` is
not the sum of one content length per reported group (3), and `totalSz` is not the sum
of length × members over the groups counted in `dedupeSz` (26). -/
theorem C4_accounting_after_read_failure :
    (main fsR ["d"]).st.lens 10 = ["a", "b", "c"] ∧
    (main fsR ["d"]).members = [["e", "f"]] ∧
    (main fsR ["d"]).out = [Line.readError 10, Line.wastedSpace 0, Line.group "e, f"] ∧
    (main fsR ["d"]).st.totalSz = 6 ∧
    (main fsR ["d"]).st.dedupeSz = 13 := by
  decide

theorem secondsFrom_eq_nil {α κ : Type} [DecidableEq κ] (key : α → κ) (seen xs : List α)
    (h : ∀ x ∈ xs, 2 ≤ seen.countP (fun y => key y = key x)) : secondsFrom key seen xs = [] := by
  induction xs generalizing seen with
  | nil => rfl
  | cons x xs ih =>
    have hx := h x (List.mem_cons_self _ _)
    have hne : ¬ seen.countP (fun y => key y = key x) = 1 := by omega
    unfold secondsFrom
    rw [if_neg hne]
    apply ih
    intro y hy
    have := h y (List.mem_cons_of_mem _ hy)
    rw [List.countP_append]
    omega

/-- In a bucket whose paths all share one key, the second path is the only one that is
the second with its key. -/
theorem seconds_of_same_key {α κ : Type} [DecidableEq κ] (key : α → κ) (a b : α)
    (rest : List α) (hb : key b = key a) (hrest : ∀ x ∈ rest, key x = key a) :
    seconds key (a :: b :: rest) = [b] := by
  unfold seconds secondsFrom
  simp only [List.countP_nil, Nat.zero_ne_one, if_false, List.nil_append]
  unfold secondsFrom
  have h1 : List.countP (fun y => decide (key y = key b)) [a] = 1 := by simp [hb]
  rw [if_pos h1, secondsFrom_eq_nil]
  intro x hx
  simp [hrest x hx, hb]

/-- C5. Final-membership rule: for a bucket of `n ≥ 2` readable paths that all hold
the same content `data`, `sameHash` returns without error exactly one group, the group
is all paths of the bucket joined with ", " in bucket order, `dedupeSz` grows by
`len(data)` and `totalSz` by `len(data) × n`. -/
theorem C5_final_membership (fs : FS) (paths : List String) (data : List UInt8) (st : State)
    (hn : 2 ≤ paths.length) (hsame : ∀ p ∈ paths, fs.readFile p = .ok data) :
    (sameHash fs paths st).err = none ∧
    (sameHash fs paths st).dupePaths = [String.intercalate ", " paths] ∧
    (sameHash fs paths st).members = [paths] ∧
    (sameHash fs paths st).st.dedupeSz = st.dedupeSz + (data.length : Int) ∧
    (sameHash fs paths st).st.totalSz = st.totalSz + (data.length : Int) * (paths.length : Int) := by
  have hr : paths.all (readable fs) = true :=
    List.all_eq_true.2 fun p hp => readable_iff.2 ⟨data, hsame p hp⟩
  have hck : ∀ p ∈ paths, checksumOf fs p = ChecksumIEEE data :=
    fun p hp => checksumOf_of_ok (hsame p hp)
  obtain ⟨a, b, rest, rfl⟩ : ∃ a b rest, paths = a :: b :: rest := by
    match paths, hn with
    | a :: b :: rest, _ => exact ⟨a, b, rest, rfl⟩
  have hsec : seconds (checksumOf fs) (a :: b :: rest) = [b] := by
    apply seconds_of_same_key
    · rw [hck b (by simp), hck a (by simp)]
    · intro x hx
      rw [hck x (by simp [hx]), hck a (by simp)]
  have hfil : (a :: b :: rest).filter (fun p => checksumOf fs p = checksumOf fs b) =
      a :: b :: rest := by
    rw [List.filter_eq_self]
    intro x hx
    simp [hck x hx, hck b (by simp)]
  have hg : groupsOf fs (a :: b :: rest) = [a :: b :: rest] := by
    unfold groupsOf
    rw [if_pos hr, hsec, List.map_singleton, hfil]
  rw [sameHash_ok fs _ st hr, hg, hsec]
  simp only [List.map_singleton, List.sum_singleton, hfil,
    contentLen_of_ok (hsame b (by simp)), true_and]

theorem C5_final_membership_witness :
    (sameHash fsD ["a", "b", "c"] State.init).err = none ∧
    (sameHash fsD ["a", "b", "c"] State.init).dupePaths = ["a, b, c"] ∧
    (sameHash fsD ["a", "b", "c"] State.init).members = [["a", "b", "c"]] ∧
    (sameHash fsD ["a", "b", "c"] State.init).st.dedupeSz = 5 ∧
    (sameHash fsD ["a", "b", "c"] State.init).st.totalSz = 15 :=
  C5_final_membership fsD ["a", "b", "c"] [1, 2, 3, 4, 5] State.init (by decide)
    (by intro p hp; simp at hp; rcases hp with rfl | rfl | rfl <;> rfl)

theorem secondsFrom_positions {α κ : Type} [DecidableEq κ] (key : α → κ) (seen xs : List α) :
    secondsFrom key seen xs =
      ((List.range xs.length).filter fun i => secondAt key (seen ++ xs) (seen.length + i)).filterMap
        fun i => xs[i]? := by
  induction xs generalizing seen with
  | nil => simp [secondsFrom]
  | cons x xs ih =>
    have h0 : secondAt key (seen ++ x :: xs) (seen.length + 0) =
        decide (seen.countP (fun y => key y = key x) = 1) := by
      have e : (seen ++ x :: xs)[seen.length + 0]? = some x := by
        rw [Nat.add_zero, List.getElem?_append_right (le_refl _), Nat.sub_self,
          List.getElem?_cons_zero]
      have t : (seen ++ x :: xs).take (seen.length + 0) = seen := by simp
      simp only [secondAt, e, t]
    have hf : (fun i => secondAt key (seen ++ x :: xs) (seen.length + i)) ∘ Nat.succ =
        fun i => secondAt key ((seen ++ [x]) ++ xs) ((seen ++ [x]).length + i) := by
      funext i
      have e1 : seen ++ x :: xs = (seen ++ [x]) ++ xs := by simp
      have e2 : seen.length + Nat.succ i = (seen ++ [x]).length + i := by
        simp only [List.length_append, List.length_singleton]
        omega
      simp only [Function.comp, e2]
      rw [e1]
    have hg : (fun i => (x :: xs)[i]?) ∘ Nat.succ = fun i => xs[i]? := by
      funext i
      simp
    unfold secondsFrom
    rw [ih (seen ++ [x]), List.length_cons, List.range_succ_eq_map, List.filter_cons,
      List.filter_map, hf, h0]
    by_cases h1 : seen.countP (fun y => key y = key x) = 1
    · rw [if_pos h1, if_pos (by simpa using h1), List.filterMap_cons]
      simp only [List.getElem?_cons_zero]
      rw [List.filterMap_map, hg]
    · rw [if_neg h1, if_neg (by simpa using h1), List.filterMap_map, hg]

theorem seconds_positions {α κ : Type} [DecidableEq κ] (key : α → κ) (xs : List α) :
    seconds key xs = (secondPositions key xs).filterMap fun i => xs[i]? := by
  unfold seconds secondPositions
  rw [secondsFrom_positions]
  simp

theorem groupsOf_ordered (fs : FS) (paths : List String) :
    (groupsOf fs paths).map (String.intercalate ", ") = orderedGroups fs paths := by
  unfold groupsOf orderedGroups
  split
  · rw [seconds_positions, List.map_map, List.map_filterMap]
    congr 1
  · rfl

/-- C6. Output order: the reported groups are the per-bucket reports concatenated in
the order of `dupeLens`, and within one bucket the groups are ordered by the position
in the bucket of the second path having their checksum (`orderedGroups`). -/
theorem C6_output_order (fs : FS) (args : List String) :
    reported (main fs args).out =
      (main fs args).st.dupeLens.flatMap fun v => orderedGroups fs ((main fs args).st.lens v) := by
  rw [main_reported, main_dupes, main_dupeLens, main_lens, allGroups, List.map_flatMap]
  congr 1
  funext v
  exact groupsOf_ordered fs _

/-! ### Read failures -/

theorem exists_unreadable_iff {fs : FS} {paths : List String} :
    (∃ p ∈ paths, readable fs p = false) ↔ ¬ paths.all (readable fs) = true := by
  rw [List.all_eq_true]
  constructor
  · rintro ⟨p, hp, hf⟩ h
    rw [h p hp] at hf
    cases hf
  · intro h
    by_contra hne
    apply h
    intro x hx
    by_contra hx2
    exact hne ⟨x, hx, by simpa using hx2⟩

theorem mem_readLines {fs : FS} {lens : Int → List String} {vs : List Int} {v : Int} :
    Line.readError v ∈ readLines fs lens vs ↔ v ∈ vs ∧ ¬ (lens v).all (readable fs) = true := by
  unfold readLines
  rw [List.mem_map]
  constructor
  · rintro ⟨w, hw, hv⟩
    cases hv
    simpa using List.mem_filter.1 hw
  · intro h
    exact ⟨v, List.mem_filter.2 (by simpa using h), rfl⟩

theorem args_ne_nil_of_candidate {fs : FS} {args : List String} {v : Int}
    (hv : v ∈ (main fs args).st.dupeLens) : args ≠ [] := by
  intro h
  subst h
  simp [main_nil, State.init] at hv

theorem readError_mem_out {fs : FS} {args : List String} {v : Int}
    (hv : v ∈ (main fs args).st.dupeLens)
    (hfail : ¬ ((main fs args).st.lens v).all (readable fs) = true) :
    Line.readError v ∈ (main fs args).out := by
  rw [main_out fs args (args_ne_nil_of_candidate hv)]
  rw [main_dupeLens] at hv
  rw [main_lens] at hfail
  exact List.mem_append_left _ (List.mem_append_right _ (mem_readLines.2 ⟨hv, hfail⟩))

/-- No path of a bucket with a read failure is a member of a group of the run. -/
theorem failed_bucket_not_grouped {fs : FS} {args : List String} {v : Int}
    (hfail : ¬ (bucket fs args v).all (readable fs) = true) :
    ∀ g ∈ allGroups fs args, ∀ x ∈ bucket fs args v, x ∉ g := by
  intro g hg x hx hxg
  obtain ⟨w, _, hgw⟩ := List.mem_flatMap.1 hg
  obtain ⟨hr, c, hc, _⟩ := mem_groupsOf hgw
  rw [hc] at hxg
  have h1 := (mem_bucket.1 (List.mem_filter.1 hxg).1).2
  have h2 := (mem_bucket.1 hx).2
  rw [← h1.symm.trans h2] at hfail
  exact hfail hr

/-- C7, against the claim. In `fsR` the bucket of length 10 is `a, b, c`; `a` and `b`
have the same checksum and precede `c`, whose read fails. Called as `main` calls it,
`sameHash` returns the error with no group at all, and the group `a, b` is not part of
the final report. -/
theorem C7_counterexample :
    (main fsR ["d"]).st.lens 10 = ["a", "b", "c"] ∧
    checksumOf fsR "a" = checksumOf fsR "b" ∧
    readable fsR "a" = true ∧ readable fsR "b" = true ∧ readable fsR "c" = false ∧
    (sameHash fsR ["a", "b", "c"] (walkArgs fsR ["d"] State.init []).1).err =
      some "read: permission denied" ∧
    (sameHash fsR ["a", "b", "c"] (walkArgs fsR ["d"] State.init []).1).dupePaths = [] ∧
    "a, b" ∉ reported (main fsR ["d"]).out := by
  decide

/-- C7, amended. A read failure in the size bucket of a length `v` discards
the groups of that bucket: whatever the counters, `sameHash` on that bucket returns an
error together with an empty list of groups, and no path of the bucket is a member of
any group of the final report (whose lines are the member lists joined with ", "). -/
theorem C7_read_failure_discards (fs : FS) (args : List String) (v : Int) (p : String)
    (hp : p ∈ (main fs args).st.lens v) (hfail : readable fs p = false) :
    (∀ st, (sameHash fs ((main fs args).st.lens v) st).err ≠ none ∧
      (sameHash fs ((main fs args).st.lens v) st).dupePaths = []) ∧
    (∀ g ∈ (main fs args).members, ∀ x ∈ (main fs args).st.lens v, x ∉ g) ∧
    reported (main fs args).out = (main fs args).members.map (String.intercalate ", ") := by
  have hnr : ¬ ((main fs args).st.lens v).all (readable fs) = true :=
    exists_unreadable_iff.1 ⟨p, hp, hfail⟩
  refine ⟨fun st => ?_, ?_, by rw [main_reported, main_dupes, main_members]⟩
  · obtain ⟨err, h1, h2, _⟩ := sameHash_error fs _ st hnr
    exact ⟨by rw [h1]; simp, h2⟩
  · rw [main_members]
    rw [main_lens] at hnr ⊢
    exact failed_bucket_not_grouped hnr

theorem C7_read_failure_discards_witness :
    "c" ∈ (main fsR ["d"]).st.lens 10 ∧ readable fsR "c" = false ∧
    (∀ st, (sameHash fsR ((main fsR ["d"]).st.lens 10) st).err ≠ none ∧
      (sameHash fsR ((main fsR ["d"]).st.lens 10) st).dupePaths = []) ∧
    (∀ g ∈ (main fsR ["d"]).members, ∀ x ∈ (main fsR ["d"]).st.lens 10, x ∉ g) :=
  ⟨by decide, by decide,
    (C7_read_failure_discards fsR ["d"] 10 "c" (by decide) (by decide)).1,
    (C7_read_failure_discards fsR ["d"] 10 "c" (by decide) (by decide)).2.1⟩

theorem indexedBy_congr (fs fs' : FS) (h : fs'.stat = fs.stat) (es : List Entry) :
    indexedBy fs' es = indexedBy fs es := by
  induction es with
  | nil => rfl
  | cons e es ih =>
    unfold indexedBy
    rw [ih, h]

theorem indexedBy_without (fs : FS) (v : Int) (es : List Entry) :
    indexedBy fs (es.filter fun e => !isSized fs v e) =
      (indexedBy fs es).filter fun p => !decide (statSize fs p = v) := by
  induction es with
  | nil => rfl
  | cons e es ih =>
    cases he : e.err with
    | some err =>
      have hk : (!isSized fs v e) = true := by simp [isSized, he]
      rw [List.filter_cons_of_pos (p := fun e => !isSized fs v e) hk]
      unfold indexedBy
      simp [he]
    | none =>
      cases hd : e.isDir with
      | true =>
        have hk : (!isSized fs v e) = true := by simp [isSized, hd]
        rw [List.filter_cons_of_pos (p := fun e => !isSized fs v e) hk]
        conv_lhs => unfold indexedBy
        conv_rhs => unfold indexedBy
        simp only [he, hd, Option.isSome_none, Bool.false_eq_true, if_false, if_true]
        exact ih
      | false =>
        cases hs : fs.stat e.path with
        | error err =>
          have hk : (!isSized fs v e) = true := by simp [isSized, hs]
          rw [List.filter_cons_of_pos (p := fun e => !isSized fs v e) hk]
          unfold indexedBy
          simp [he, hd, hs]
        | ok sz =>
          have hsz : statSize fs e.path = sz := statSize_of_ok hs
          by_cases hv : sz = v
          · have hk : ¬ (!isSized fs v e) = true := by simp [isSized, he, hd, hs, hv]
            rw [List.filter_cons_of_neg (p := fun e => !isSized fs v e) hk, ih]
            conv_rhs => unfold indexedBy
            simp [he, hd, hs, hsz, hv]
          · have hk : (!isSized fs v e) = true := by simp [isSized, he, hd, hs, hv]
            rw [List.filter_cons_of_pos (p := fun e => !isSized fs v e) hk]
            conv_lhs => unfold indexedBy
            conv_rhs => unfold indexedBy
            simp [he, hd, hs, hsz, hv, ih]

theorem indexed_without (fs : FS) (v : Int) (args : List String) :
    indexed (fs.withoutSize v) args =
      (indexed fs args).filter fun p => !decide (statSize fs p = v) := by
  unfold indexed
  rw [List.filter_flatMap]
  congr 1
  funext r
  rw [indexedBy_congr fs (fs.withoutSize v) rfl]
  exact indexedBy_without fs v (fs.entries r)

theorem bucket_without (fs : FS) (v : Int) (args : List String) (u : Int) :
    bucket (fs.withoutSize v) args u = if u = v then [] else bucket fs args u := by
  unfold bucket
  rw [indexed_without, List.filter_filter]
  have hs : statSize (fs.withoutSize v) = statSize fs := rfl
  rw [hs]
  by_cases huv : u = v
  · subst huv
    rw [if_pos rfl, List.filter_eq_nil_iff]
    intro x _
    simp
  · rw [if_neg huv]
    congr 1
    funext x
    by_cases hx : statSize fs x = u
    · simp [hx, huv]
    · simp [hx]

theorem candidates_without (fs : FS) (v : Int) (args : List String) :
    candidates (fs.withoutSize v) args = (candidates fs args).filter fun u => !decide (u = v) := by
  unfold candidates seconds
  have hs : statSize (fs.withoutSize v) = statSize fs := rfl
  rw [indexed_without, hs, List.filter_map]
  have := secondsFrom_filter (statSize fs) (fun p => !decide (statSize fs p = v))
    (fun a b hab => by simp [hab]) [] (indexed fs args)
  rw [List.filter_nil] at this
  rw [this]
  rfl

theorem groupsOf_without (fs : FS) (v : Int) (paths : List String) :
    groupsOf (fs.withoutSize v) paths = groupsOf fs paths := rfl

theorem flatMap_filter_ne {β : Type} (l : List Int) (v : Int) (f g : Int → List β)
    (hv : f v = []) (hfg : ∀ u, u ≠ v → g u = f u) :
    (l.filter fun u => !decide (u = v)).flatMap g = l.flatMap f := by
  induction l with
  | nil => rfl
  | cons a l ih =>
    by_cases ha : a = v
    · subst ha
      simp [hv, ih]
    · simp [ha, hfg a ha, ih]

theorem allGroups_without (fs : FS) (v : Int) (args : List String)
    (hfail : ¬ (bucket fs args v).all (readable fs) = true) :
    allGroups (fs.withoutSize v) args = allGroups fs args := by
  unfold allGroups
  rw [candidates_without]
  apply flatMap_filter_ne
  · exact groupsOf_of_not_readable fs _ hfail
  · intro u hu
    rw [bucket_without, if_neg hu, groupsOf_without]

/-- C8. Read-error isolation: when a read fails inside the bucket of a candidate length
`v`, the line "Error reading files of len: v" is printed, and the reported groups, in
order, are exactly those of the run over the file system without the files of size `v`
(in which the bucket of `v` is empty, every other bucket is unchanged, and the
candidate lengths are the same without `v`). -/
theorem C8_read_error_isolation (fs : FS) (args : List String) (v : Int) (p : String)
    (hv : v ∈ (main fs args).st.dupeLens) (hp : p ∈ (main fs args).st.lens v)
    (hfail : readable fs p = false) :
    Line.readError v ∈ (main fs args).out ∧
    reported (main fs args).out = reported (main (fs.withoutSize v) args).out ∧
    (main (fs.withoutSize v) args).st.lens v = [] ∧
    (∀ u, u ≠ v → (main (fs.withoutSize v) args).st.lens u = (main fs args).st.lens u) ∧
    (main (fs.withoutSize v) args).st.dupeLens =
      (main fs args).st.dupeLens.filter fun u => !decide (u = v) := by
  have hnr : ¬ ((main fs args).st.lens v).all (readable fs) = true :=
    exists_unreadable_iff.1 ⟨p, hp, hfail⟩
  refine ⟨readError_mem_out hv hnr, ?_, ?_, ?_, ?_⟩
  · rw [main_lens] at hnr
    rw [main_reported, main_reported, main_dupes, main_dupes, allGroups_without fs v args hnr]
  · rw [main_lens, bucket_without, if_pos rfl]
  · intro u hu
    rw [main_lens, main_lens, bucket_without, if_neg hu]
  · rw [main_dupeLens, main_dupeLens, candidates_without]

theorem C8_read_error_isolation_witness :
    (10 : Int) ∈ (main fsR ["d"]).st.dupeLens ∧ "c" ∈ (main fsR ["d"]).st.lens 10 ∧
    readable fsR "c" = false ∧
    Line.readError 10 ∈ (main fsR ["d"]).out ∧
    reported (main fsR ["d"]).out = reported (main (fsR.withoutSize 10) ["d"]).out ∧
    reported (main (fsR.withoutSize 10) ["d"]).out = ["e, f"] :=
  ⟨by decide, by decide, by decide,
    (C8_read_error_isolation fsR ["d"] 10 "c" (by decide) (by decide) (by decide)).1,
    (C8_read_error_isolation fsR ["d"] 10 "c" (by decide) (by decide) (by decide)).2.1,
    by decide⟩

/-! ### Traversal errors -/

theorem Walk_cons_error (fn : Entry → State → State × Option Err) (e : Entry)
    (es : List Entry) (st st1 : State) (err : Err) (h : fn e st = (st1, some err)) :
    Walk fn (e :: es) st = (st1, some err) := by
  conv_lhs => unfold Walk
  simp only [h]

theorem Walk_cons_ok (fn : Entry → State → State × Option Err) (e : Entry)
    (es : List Entry) (st st1 : State) (h : fn e st = (st1, none)) :
    Walk fn (e :: es) st = Walk fn es st1 := by
  conv_lhs => unfold Walk
  simp only [h]

theorem Walk_append (fn : Entry → State → State × Option Err) (es1 es2 : List Entry)
    (st : State) (h : (Walk fn es1 st).2 = none) :
    Walk fn (es1 ++ es2) st = Walk fn es2 (Walk fn es1 st).1 := by
  induction es1 generalizing st with
  | nil => rfl
  | cons e es ih =>
    rw [List.cons_append]
    rcases hfe : fn e st with ⟨st1, _ | err⟩
    · rw [Walk_cons_ok fn e _ st st1 hfe] at h ⊢
      rw [Walk_cons_ok fn e _ st st1 hfe]
      exact ih st1 h
    · rw [Walk_cons_error fn e _ st st1 err hfe] at h
      cases h

/-- C9, against the claim. In `fsW` the walker hands over, under the root `d`, the
file `p`, then `x` with an error, then the siblings `a` and `b`. The walk of `d` ends
with that error, and neither `a` nor `b` is in the bucket of its size, neither after
the walk nor at the end of the run; only `p` is. -/
theorem C9_counterexample :
    fsW.entries "d" =
      [⟨"d", true, none⟩, ⟨"p", false, none⟩, ⟨"x", false, some "lstat x: permission denied"⟩,
        ⟨"a", false, none⟩, ⟨"b", false, none⟩] ∧
    fsW.stat "a" = .ok 2 ∧ fsW.stat "b" = .ok 2 ∧
    (walk fsW "d" State.init).2 = some "lstat x: permission denied" ∧
    (walk fsW "d" State.init).1.lens 2 = ["p"] ∧
    (main fsW ["d", "e"]).st.lens 2 = ["p"] ∧
    (main fsW ["d", "e"]).out =
      [Line.walkError "d" "lstat x: permission denied", Line.wastedSpace 0, Line.group "f, g"] :=
  ⟨by decide, rfl, rfl, by decide, by decide, by decide, by decide⟩

/-- C9, amended. A per-entry traversal error aborts the traversal of that root: when
the walker hands the callback an entry `e` with a non-nil error after the entries
`es1` were handled without error, `walk` returns that error with the package-level
variables as they were after `es1`; the entries `es2` after `e` are not visited. -/
theorem C9_entry_error_aborts (fs : FS) (root : String) (es1 es2 : List Entry) (e : Entry)
    (err : Err) (st : State) (hroot : fs.entries root = es1 ++ e :: es2)
    (he : e.err = some err) (hpre : (Walk (walkFn fs) es1 st).2 = none) :
    walk fs root st = ((Walk (walkFn fs) es1 st).1, some err) := by
  unfold walk
  rw [hroot, Walk_append _ _ _ _ hpre]
  exact Walk_cons_error _ e es2 _ _ err (walkFn_err fs e _ err he)

theorem C9_entry_error_aborts_witness :
    fsW.entries "d" =
      [⟨"d", true, none⟩, ⟨"p", false, none⟩] ++
        ⟨"x", false, some "lstat x: permission denied"⟩ ::
          [⟨"a", false, none⟩, ⟨"b", false, none⟩] ∧
    walk fsW "d" State.init =
      ((Walk (walkFn fsW) [⟨"d", true, none⟩, ⟨"p", false, none⟩] State.init).1,
        some "lstat x: permission denied") :=
  ⟨by decide,
    C9_entry_error_aborts fsW "d" [⟨"d", true, none⟩, ⟨"p", false, none⟩]
      [⟨"a", false, none⟩, ⟨"b", false, none⟩] ⟨"x", false, some "lstat x: permission denied"⟩
      "lstat x: permission denied" State.init (by decide) rfl (by decide)⟩

theorem walk_err (fs : FS) (r : String) (st : State) :
    (walk fs r st).2 = walkErr fs (fs.entries r) := by
  unfold walk
  rw [Walk_walkFn]

theorem walk_state (fs : FS) (r : String) (st : State) :
    (walk fs r st).1 = indexAll fs (indexedBy fs (fs.entries r)) st := by
  unfold walk
  rw [Walk_walkFn]

theorem indexed_append (fs : FS) (xs ys : List String) :
    indexed fs (xs ++ ys) = indexed fs xs ++ indexed fs ys := by
  simp [indexed]

theorem walkLines_append (fs : FS) (xs ys : List String) :
    walkLines fs (xs ++ ys) = walkLines fs xs ++ walkLines fs ys := by
  simp [walkLines]

/-- C10. Root-error isolation: when the walk of a root `r` returns an error, the loop
over the roots carries on with the later roots `post` from the variables that walk
left behind, after printing the error for `r`. At the end every bucket holds, in
order, the files indexed under every root (for a failed root those before its error),
and the printed lines are one line per root whose own walk returns an error. -/
theorem C10_root_error_isolation (fs : FS) (pre post : List String) (r : String) (err : Err)
    (herr : (walk fs r (walkArgs fs pre State.init []).1).2 = some err) :
    walkArgs fs (pre ++ r :: post) State.init [] =
      walkArgs fs post (walk fs r (walkArgs fs pre State.init []).1).1
        ((walkArgs fs pre State.init []).2 ++ [Line.walkError r err]) ∧
    (∀ v, (walkArgs fs (pre ++ r :: post) State.init []).1.lens v =
      ((pre ++ r :: post).flatMap fun x => indexedBy fs (fs.entries x)).filter
        fun p => statSize fs p = v) ∧
    (walkArgs fs (pre ++ r :: post) State.init []).2 =
      (pre ++ r :: post).filterMap fun x => (walk fs x State.init).2.map (Line.walkError x) := by
  have hw : walkErr fs (fs.entries r) = some err := by rw [← walk_err fs r _, herr]
  refine ⟨?_, ?_, ?_⟩
  · simp only [walkArgs_eq, walk_state, indexed_append, walkLines_append, indexAll_append,
      List.nil_append]
    have h1 : indexed fs (r :: post) = indexedBy fs (fs.entries r) ++ indexed fs post := by
      simp [indexed]
    have h2 : walkLines fs (r :: post) = Line.walkError r err :: walkLines fs post := by
      simp [walkLines, hw]
    rw [h1, h2, indexAll_append]
    simp
  · intro v
    rw [walkArgs_state]
    rfl
  · rw [walkArgs_eq]
    simp only [List.nil_append]
    unfold walkLines
    congr 1
    funext x
    rw [walk_err]

theorem C10_root_error_isolation_witness :
    (walk fsW "d" (walkArgs fsW [] State.init []).1).2 = some "lstat x: permission denied" ∧
    (walkArgs fsW ["d", "e"] State.init []).1.lens 2 = ["p"] ∧
    (walkArgs fsW ["d", "e"] State.init []).1.lens 3 = ["f", "g"] ∧
    (walkArgs fsW ["d", "e"] State.init []).2 =
      [Line.walkError "d" "lstat x: permission denied"] ∧
    (walkArgs fsW ([] ++ "d" :: ["e"]) State.init []).2 =
      ([] ++ "d" :: ["e"]).filterMap fun x =>
        (walk fsW x State.init).2.map (Line.walkError x) :=
  ⟨by decide, by decide, by decide, by decide,
    (C10_root_error_isolation fsW [] ["e"] "d" "lstat x: permission denied" (by decide)).2.2⟩

/-! ### Accounting in runs without read failure -/

theorem second_of_class {α κ : Type} [DecidableEq κ] (key : α → κ) (seen xs : List α) (x : α)
    (hx : x ∈ secondsFrom key seen xs) :
    ((seen ++ xs).filter fun y => key y = key x)[1]? = some x := by
  induction xs generalizing seen with
  | nil => simp [secondsFrom] at hx
  | cons y ys ih =>
    have hrec : x ∈ secondsFrom key (seen ++ [y]) ys →
        ((seen ++ y :: ys).filter fun z => key z = key x)[1]? = some x := by
      intro h
      have := ih (seen ++ [y]) h
      simpa using this
    unfold secondsFrom at hx
    split at hx
    · rename_i h1
      rcases List.mem_cons.1 hx with rfl | h
      · rw [List.filter_append, List.filter_cons_of_pos (by simp)]
        rw [List.countP_eq_length_filter] at h1
        rw [List.getElem?_append_right (by omega), h1]
        simp
      · exact hrec h
    · exact hrec hx

theorem recordedLen_of_second (fs : FS) (g : List String) (x : String) (h : g[1]? = some x) :
    recordedLen fs g = contentLen fs x := by
  match g, h with
  | _ :: y :: _, h =>
    simp only [List.getElem?_cons_succ, List.getElem?_cons_zero, Option.some.injEq] at h
    subst h
    rfl

theorem groupsOf_recordedLen (fs : FS) (paths : List String)
    (hr : paths.all (readable fs) = true) :
    (groupsOf fs paths).map (recordedLen fs) =
      (seconds (checksumOf fs) paths).map (contentLen fs) ∧
    (groupsOf fs paths).map (fun g => recordedLen fs g * (g.length : Int)) =
      (seconds (checksumOf fs) paths).map fun x =>
        contentLen fs x *
          ((paths.filter fun p => checksumOf fs p = checksumOf fs x).length : Int) := by
  have key : ∀ x ∈ seconds (checksumOf fs) paths,
      recordedLen fs (paths.filter fun p => checksumOf fs p = checksumOf fs x) =
        contentLen fs x := by
    intro x hx
    apply recordedLen_of_second
    simpa using second_of_class (checksumOf fs) [] paths x hx
  unfold groupsOf
  rw [if_pos hr, List.map_map, List.map_map]
  constructor
  · exact List.map_congr_left fun x hx => key x hx
  · exact List.map_congr_left fun x hx => by simp only [Function.comp, key x hx]

theorem resolve_counters (fs : FS) (vs : List Int) (r : Resolve)
    (hr : ∀ v ∈ vs, (r.st.lens v).all (readable fs) = true) :
    (resolve fs vs r).st.dedupeSz = r.st.dedupeSz +
      ((vs.flatMap fun v => groupsOf fs (r.st.lens v)).map (recordedLen fs)).sum ∧
    (resolve fs vs r).st.totalSz = r.st.totalSz +
      ((vs.flatMap fun v => groupsOf fs (r.st.lens v)).map
        fun g => recordedLen fs g * (g.length : Int)).sum := by
  induction vs generalizing r with
  | nil => simp [resolve]
  | cons v vs ih =>
    have hv := hr v (List.mem_cons_self _ _)
    have hok := sameHash_ok fs (r.st.lens v) r.st hv
    have herr : (sameHash fs (r.st.lens v) r.st).err = none := by rw [hok]
    rw [resolve_cons_ok fs v vs r herr]
    obtain ⟨g1, g2⟩ := groupsOf_recordedLen fs (r.st.lens v) hv
    have hl : (sameHash fs (r.st.lens v) r.st).st.lens = r.st.lens := by rw [hok]
    obtain ⟨i1, i2⟩ := ih
      { r with dupes := r.dupes ++ (sameHash fs (r.st.lens v) r.st).dupePaths,
               members := r.members ++ (sameHash fs (r.st.lens v) r.st).members,
               st := (sameHash fs (r.st.lens v) r.st).st }
      (by intro w hw; simp only [hl]; exact hr w (List.mem_cons_of_mem _ hw))
    simp only [hl] at i1 i2
    rw [i1, i2, hok]
    simp only [List.flatMap_cons, List.map_append, List.sum_append, g1, g2]
    constructor <;> ring

/-- Accounting in a run all of whose reads succeed: `dedupeSz` is the sum over the
reported groups of the recorded content length, and `totalSz` the sum over the reported
groups of the recorded content length times the number of members. -/
theorem accounting_when_all_read (fs : FS) (args : List String)
    (hread : ∀ x ∈ indexed fs args, readable fs x = true) :
    (main fs args).st.dedupeSz = ((main fs args).members.map (recordedLen fs)).sum ∧
    (main fs args).st.totalSz =
      ((main fs args).members.map fun g => recordedLen fs g * (g.length : Int)).sum := by
  by_cases h : args = []
  · subst h
    simp [main_nil, State.init]
  · rw [main_members]
    rw [main_of_ne fs args h]
    have hst : (finish (resolve fs (candidates fs args) (afterWalk fs args))).st =
        (resolve fs (candidates fs args) (afterWalk fs args)).st := by
      unfold finish
      split <;> rfl
    rw [hst]
    have := resolve_counters fs (candidates fs args) (afterWalk fs args)
      (fun v _ => List.all_eq_true.2 fun x hx => hread x (mem_bucket.1 hx).1)
    simpa [afterWalk, State.init, allGroups] using this

/-! ### Stat failures -/

/-- C11. Stat failure is atomic and propagated: when `os.Stat` fails on the path of an
entry that the walker handed over without error as a file, `sameLength` returns that
error and leaves all package-level variables (`lens` and `dupeLens` among them) as they
were, the callback returns the same error with the same variables, and the walk of a
root that meets this entry after entries handled without error stops there and returns
the error. -/
theorem C11_stat_failure (fs : FS) (e : Entry) (err : Err) (he : e.err = none)
    (hd : e.isDir = false) (hstat : fs.stat e.path = .error err) :
    (∀ st, sameLength fs e.path st = (st, some err)) ∧
    (∀ st, walkFn fs e st = (st, some err)) ∧
    ∀ root es1 es2 st, fs.entries root = es1 ++ e :: es2 →
      (Walk (walkFn fs) es1 st).2 = none →
      walk fs root st = ((Walk (walkFn fs) es1 st).1, some err) := by
  have h1 : ∀ st, sameLength fs e.path st = (st, some err) :=
    fun st => sameLength_error fs e.path st err hstat
  have h2 : ∀ st, walkFn fs e st = (st, some err) := by
    intro st
    rw [walkFn_file fs e st he hd, h1]
  refine ⟨h1, h2, ?_⟩
  intro root es1 es2 st hroot hpre
  unfold walk
  rw [hroot, Walk_append _ _ _ _ hpre]
  exact Walk_cons_error _ e es2 _ _ err (h2 _)

theorem C11_stat_failure_witness :
    fsS.entries "d" =
      [⟨"d", true, none⟩, ⟨"a", false, none⟩] ++ ⟨"s", false, none⟩ :: [⟨"b", false, none⟩] ∧
    sameLength fsS "s" State.init = (State.init, some "stat s: no such file") ∧
    walk fsS "d" State.init =
      ((Walk (walkFn fsS) [⟨"d", true, none⟩, ⟨"a", false, none⟩] State.init).1,
        some "stat s: no such file") ∧
    (walk fsS "d" State.init).1.lens 2 = ["a"] ∧
    (walk fsS "d" State.init).1.dupeLens = [] :=
  ⟨by decide,
    (C11_stat_failure fsS ⟨"s", false, none⟩ "stat s: no such file" rfl rfl rfl).1 State.init,
    (C11_stat_failure fsS ⟨"s", false, none⟩ "stat s: no such file" rfl rfl rfl).2.2 "d"
      [⟨"d", true, none⟩, ⟨"a", false, none⟩] [⟨"b", false, none⟩] State.init (by decide)
      (by decide),
    by decide, by decide⟩

/-! ### The shape of the report -/

theorem mem_walkLines {fs : FS} {args : List String} {l : Line} (h : l ∈ walkLines fs args) :
    ∃ r err, l = Line.walkError r err := by
  unfold walkLines at h
  obtain ⟨r, _, hr⟩ := List.mem_filterMap.1 h
  cases hw : walkErr fs (fs.entries r) with
  | none => simp [hw] at hr
  | some err =>
    simp only [hw, Option.map_some', Option.some.injEq] at hr
    exact ⟨r, err, hr.symm⟩

theorem mem_readLines_shape {fs : FS} {lens : Int → List String} {vs : List Int} {l : Line}
    (h : l ∈ readLines fs lens vs) : ∃ v, l = Line.readError v := by
  unfold readLines at h
  obtain ⟨v, _, hv⟩ := List.mem_map.1 h
  exact ⟨v, hv.symm⟩

/-- The lines printed before the report are error lines only. -/
theorem mem_error_lines {fs : FS} {args : List String} {l : Line}
    (h : l ∈ walkLines fs args ++ readLines fs (bucket fs args) (candidates fs args)) :
    (∃ r err, l = Line.walkError r err) ∨ ∃ v, l = Line.readError v := by
  rcases List.mem_append.1 h with h1 | h1
  · exact Or.inl (mem_walkLines h1)
  · exact Or.inr (mem_readLines_shape h1)

/-- C12. Report shape, for a run with at least one directory argument: after the error
lines of the two loops, the program prints either the single line "No duplicates
detected", exactly when the collected list of groups `dupes` is empty, or one
wasted-space line followed by one line per collected group, in order; no run prints
"No duplicates detected" together with a wasted-space line or a group line. -/
theorem C12_report_shape (fs : FS) (args : List String) (hargs : args ≠ []) :
    (Line.noDuplicates ∈ (main fs args).out ↔ (main fs args).dupes = []) ∧
    ((main fs args).dupes = [] →
      (main fs args).out =
        walkLines fs args ++ readLines fs (main fs args).st.lens (main fs args).st.dupeLens ++
          [Line.noDuplicates]) ∧
    ((main fs args).dupes ≠ [] →
      (main fs args).out =
        walkLines fs args ++ readLines fs (main fs args).st.lens (main fs args).st.dupeLens ++
          Line.wastedSpace (((main fs args).st.totalSz - (main fs args).st.dedupeSz).tdiv 1024)
            :: (main fs args).dupes.map Line.group) ∧
    ¬ (Line.noDuplicates ∈ (main fs args).out ∧
      ((∃ kb, Line.wastedSpace kb ∈ (main fs args).out) ∨
        ∃ g, Line.group g ∈ (main fs args).out)) := by
  have hout := main_out fs args hargs
  rw [main_lens, main_dupeLens]
  have hempty : (main fs args).dupes = [] →
      (main fs args).out =
        walkLines fs args ++ readLines fs (bucket fs args) (candidates fs args) ++
          [Line.noDuplicates] := by
    intro h
    rw [hout, h]
    rfl
  have hfull : (main fs args).dupes ≠ [] →
      (main fs args).out =
        walkLines fs args ++ readLines fs (bucket fs args) (candidates fs args) ++
          Line.wastedSpace (((main fs args).st.totalSz - (main fs args).st.dedupeSz).tdiv 1024)
            :: (main fs args).dupes.map Line.group := by
    intro h
    have hlen : ¬ (main fs args).dupes.length < 1 := by
      intro hl
      exact h (List.length_eq_zero.1 (by omega))
    rw [hout, if_neg hlen]
  have hiff : Line.noDuplicates ∈ (main fs args).out ↔ (main fs args).dupes = [] := by
    constructor
    · intro hmem
      by_contra hne
      rw [hfull hne] at hmem
      rcases List.mem_append.1 hmem with h1 | h1
      · rcases mem_error_lines h1 with ⟨r, err, h2⟩ | ⟨v, h2⟩ <;> cases h2
      · rcases List.mem_cons.1 h1 with h2 | h2
        · cases h2
        · obtain ⟨g, _, hg⟩ := List.mem_map.1 h2
          cases hg
    · intro h
      rw [hempty h]
      simp
  refine ⟨hiff, hempty, hfull, ?_⟩
  rintro ⟨hno, hrep⟩
  have hnil := hiff.1 hno
  rw [hempty hnil] at hrep
  rcases hrep with ⟨kb, h⟩ | ⟨g, h⟩
  · rcases List.mem_append.1 h with h1 | h1
    · rcases mem_error_lines h1 with ⟨r, err, h2⟩ | ⟨v, h2⟩ <;> cases h2
    · simp at h1
  · rcases List.mem_append.1 h with h1 | h1
    · rcases mem_error_lines h1 with ⟨r, err, h2⟩ | ⟨v, h2⟩ <;> cases h2
    · simp at h1

theorem C12_report_shape_witness :
    ((main fsB ["d"]).st.dupeLens = [10] ∧ (main fsB ["d"]).dupes = [] ∧
      (main fsB ["d"]).out = [Line.noDuplicates]) ∧
    ((main fsA ["d"]).dupes = ["a, b"] ∧
      (main fsA ["d"]).out = [Line.wastedSpace 0, Line.group "a, b"]) ∧
    (Line.noDuplicates ∈ (main fsB ["d"]).out ↔ (main fsB ["d"]).dupes = []) ∧
    (Line.noDuplicates ∈ (main fsA ["d"]).out ↔ (main fsA ["d"]).dupes = []) :=
  ⟨by decide, by decide, (C12_report_shape fsB ["d"] (by decide)).1,
    (C12_report_shape fsA ["d"] (by decide)).1⟩

/-! ### The state after indexing -/

/-- C13. Candidate-list invariant: after feeding the paths `ps` to `sameLength` one
after the other from the empty state, every call succeeding, `dupeLens` contains a
length exactly when its bucket has at least two paths, contains no length twice, and
lists the sizes of the paths at the positions, in increasing order, at which a bucket
received its second path. -/
theorem C13_candidate_invariant (fs : FS) (ps : List String)
    (hok : ∀ p ∈ ps, ∃ sz, fs.stat p = .ok sz) :
    (∀ v, v ∈ (indexAll fs ps State.init).dupeLens ↔
      2 ≤ ((indexAll fs ps State.init).lens v).length) ∧
    (indexAll fs ps State.init).dupeLens.Nodup ∧
    (indexAll fs ps State.init).dupeLens =
      (secondPositions (statSize fs) ps).filterMap fun i => ps[i]?.map (statSize fs) := by
  have hst := indexAll_eq fs ps hok [] State.init (by simp [State.init])
  have hl : ∀ v, (indexAll fs ps State.init).lens v =
      ps.filter fun p => statSize fs p = v := by
    intro v
    rw [hst]
    simp [State.init]
  have hd : (indexAll fs ps State.init).dupeLens =
      (secondsFrom (statSize fs) [] ps).map (statSize fs) := by
    rw [hst]
    simp [State.init]
  refine ⟨?_, ?_, ?_⟩
  · intro v
    rw [hd, hl, mem_secondsFrom_key, ← List.countP_eq_length_filter]
    simp
  · rw [hd]
    exact secondsFrom_nodup (statSize fs) [] ps
  · rw [hd]
    have := seconds_positions (statSize fs) ps
    unfold seconds at this
    rw [this, List.map_filterMap]

theorem C13_candidate_invariant_witness :
    (indexAll fsD ["a", "b", "c"] State.init).dupeLens = [5] ∧
    (indexAll fsO ["x1", "y1", "y2", "x2"] State.init).dupeLens = [2] ∧
    (indexAll fsR ["a", "e", "f", "b", "c"] State.init).dupeLens = [3, 10] ∧
    (indexAll fsR ["a", "e", "f", "b", "c"] State.init).dupeLens =
      (secondPositions (statSize fsR) ["a", "e", "f", "b", "c"]).filterMap fun i =>
        ["a", "e", "f", "b", "c"][i]?.map (statSize fsR) :=
  ⟨by decide, by decide, by decide,
    (C13_candidate_invariant fsR ["a", "e", "f", "b", "c"] (by
      intro p hp
      simp at hp
      rcases hp with rfl | rfl | rfl | rfl | rfl <;> exact ⟨_, rfl⟩)).2.2⟩

/-- C14. Size-bucket contents: when the loop over the roots is over, the bucket of every
length `s` is the subsequence of the walked (indexed) paths whose `os.Stat` size is `s`,
in discovery order, and the calls of `sameHash` made by the run are, in order, one call
per candidate length on the whole bucket of that length as it is at the end. -/
theorem C14_bucket_contents (fs : FS) (args : List String) :
    (∀ s, (walkArgs fs args State.init []).1.lens s =
      (indexed fs args).filter fun p => statSize fs p = s) ∧
    (∀ p ∈ indexed fs args, fs.stat p = .ok (statSize fs p)) ∧
    (∀ s, (main fs args).st.lens s = (walkArgs fs args State.init []).1.lens s) ∧
    (main fs args).st.calls =
      (walkArgs fs args State.init []).1.dupeLens.map (walkArgs fs args State.init []).1.lens := by
  have hw := walkArgs_state fs args
  refine ⟨?_, ?_, ?_, ?_⟩
  · intro s
    rw [hw]
  · intro p hp
    obtain ⟨sz, hsz⟩ := indexed_stat fs args p hp
    rw [hsz, statSize_of_ok hsz]
  · intro s
    rw [main_lens, hw]
    rfl
  · rw [main_calls, hw]
    rfl

/-- In scenario D the one call of `sameHash` receives all three paths of the bucket,
the third of which was added after the length had become a candidate. -/
theorem full_bucket_is_hashed :
    (main fsD ["d"]).st.calls = [["a", "b", "c"]] ∧
    (main fsR ["d"]).st.calls = [["a", "b", "c"], ["e", "f"]] := by
  decide

/-! ### Paths fed more than once -/

/-- Every group of a run is a subsequence of the indexed paths. -/
theorem group_sublist_indexed {fs : FS} {args : List String} {g : List String}
    (hg : g ∈ allGroups fs args) : g.Sublist (indexed fs args) := by
  obtain ⟨v, _, hgv⟩ := List.mem_flatMap.1 hg
  obtain ⟨_, c, hc, _⟩ := mem_groupsOf hgv
  rw [hc]
  exact (List.filter_sublist _).trans (List.filter_sublist _)

/-- A member of a group is listed in it as often as it was indexed. -/
theorem group_count {fs : FS} {args : List String} {g : List String}
    (hg : g ∈ allGroups fs args) (p : String) (hp : p ∈ g) :
    g.count p = (indexed fs args).count p := by
  obtain ⟨v, _, hgv⟩ := List.mem_flatMap.1 hg
  obtain ⟨_, c, hc, _⟩ := mem_groupsOf hgv
  rw [hc] at hp ⊢
  obtain ⟨hpb, hpc⟩ := List.mem_filter.1 hp
  have hpv := (List.mem_filter.1 hpb).2
  unfold bucket
  rw [List.count_filter (p := fun x => decide (checksumOf fs x = c)) hpc,
    List.count_filter (p := fun x => decide (statSize fs x = v)) hpv]

/-- C16, against the claim. The root `d` of scenario C, whose files `a`, `b`, `c` have
pairwise distinct lengths, is given twice on the command line: every path is fed to
`sameLength` twice, and the run reports the groups "a, a", "b, b" and "c, c", none of
which lists two distinct paths. -/
theorem C16_counterexample :
    indexed fsC ["d", "d"] = ["a", "b", "c", "a", "b", "c"] ∧
    (main fsC ["d", "d"]).members = [["a", "a"], ["b", "b"], ["c", "c"]] ∧
    (main fsC ["d", "d"]).out =
      [Line.wastedSpace 0, Line.group "a, a", Line.group "b, b", Line.group "c, c"] ∧
    ¬ ∃ p ∈ ["a", "a"], ∃ q ∈ ["a", "a"], p ≠ q := by
  decide

/-- C16, amended. Every reported group lists at least two entries of the sequence of
paths fed to `sameLength`, in the order of that sequence, and lists each of its paths
as often as the path was fed. When no path is fed more than once, the members of a
group are pairwise distinct, so the group lists at least two distinct paths. -/
theorem C16_group_members (fs : FS) (args : List String) (g : List String)
    (hg : g ∈ (main fs args).members) :
    2 ≤ g.length ∧ g.Sublist (indexed fs args) ∧
    (∀ p ∈ g, g.count p = (indexed fs args).count p) ∧
    ((indexed fs args).Nodup → g.Nodup ∧ ∃ p ∈ g, ∃ q ∈ g, p ≠ q) := by
  rw [main_members] at hg
  have hlen : 2 ≤ g.length := by
    obtain ⟨v, _, hgv⟩ := List.mem_flatMap.1 hg
    obtain ⟨_, c, _, h2⟩ := mem_groupsOf hgv
    exact h2
  refine ⟨hlen, group_sublist_indexed hg, group_count hg, ?_⟩
  intro hnd
  have hgn : g.Nodup := (group_sublist_indexed hg).nodup hnd
  refine ⟨hgn, ?_⟩
  match g, hlen, hgn with
  | a :: b :: rest, _, hn =>
    refine ⟨a, by simp, b, by simp, ?_⟩
    intro hab
    rw [List.nodup_cons] at hn
    exact hn.1 (by simp [hab])

theorem C16_group_members_witness :
    ["a", "b"] ∈ (main fsA ["d"]).members ∧ (indexed fsA ["d"]).Nodup ∧
    (["a", "b"].Nodup ∧ ∃ p ∈ ["a", "b"], ∃ q ∈ ["a", "b"], p ≠ q) ∧
    ["a", "a"] ∈ (main fsC ["d", "d"]).members ∧
    (∀ p ∈ ["a", "a"], ["a", "a"].count p = (indexed fsC ["d", "d"]).count p) :=
  ⟨by decide, by decide,
    (C16_group_members fsA ["d"] ["a", "b"] (by decide)).2.2.2 (by decide),
    by decide,
    (C16_group_members fsC ["d", "d"] ["a", "a"] (by decide)).2.2.1⟩

/-! ### Accounting in every run -/

/-- The package-level variables after the first loop of `sameHash` are those after the
paths that precede the first read failure. -/
theorem scan_state_takeWhile (fs : FS) (paths : List String) (l : Locals) (st : State) :
    (scan fs paths l st).2.1 = (scan fs (paths.takeWhile (readable fs)) l st).2.1 := by
  induction paths generalizing l st with
  | nil => rfl
  | cons p rest ih =>
    cases h : fs.readFile p with
    | error err =>
      have hr : readable fs p = false := by simp [readable, h]
      rw [scan_cons_error fs p rest l st err h, List.takeWhile_cons, hr]
      rfl
    | ok data =>
      have hr : readable fs p = true := by simp [readable, h]
      rw [scan_cons_ok fs p rest l st data h, List.takeWhile_cons, hr]
      simp only [if_true]
      rw [scan_cons_ok fs p _ l st data h]
      exact ih _ _

theorem scan_dedupeSz (fs : FS) (paths : List String) (st : State) :
    (scan fs paths Locals.init st).2.1.dedupeSz = st.dedupeSz + confirmedLen fs paths := by
  rw [scan_state_takeWhile]
  have hr : ∀ p ∈ paths.takeWhile (readable fs), readable fs p = true :=
    fun p hp => List.mem_takeWhile_imp hp
  rw [scan_ok fs _ hr [] Locals.init st (by simp [Locals.init])]
  rfl

/-- What one `sameHash` call does to the two counters, whether or not a read fails. -/
theorem sameHash_counters (fs : FS) (paths : List String) (st : State) :
    (sameHash fs paths st).st.dedupeSz = st.dedupeSz + confirmedLen fs paths ∧
    (sameHash fs paths st).st.totalSz = st.totalSz +
      ((groupsOf fs paths).map fun g => recordedLen fs g * (g.length : Int)).sum := by
  constructor
  · have hd := scan_dedupeSz fs paths { st with calls := st.calls ++ [paths] }
    rw [sameHash_unfold]
    generalize scan fs paths Locals.init { st with calls := st.calls ++ [paths] } = res at hd
    obtain ⟨l, st1, e⟩ := res
    cases e with
    | none =>
      simp only [render_eq]
      exact hd
    | some err => exact hd
  · by_cases hr : paths.all (readable fs) = true
    · rw [sameHash_ok fs paths st hr, (groupsOf_recordedLen fs paths hr).2]
    · obtain ⟨_, _, _, _, _, _, h, _⟩ := sameHash_error fs paths st hr
      rw [h, groupsOf_of_not_readable fs paths hr]
      simp

theorem resolve_counters_general (fs : FS) (vs : List Int) (r : Resolve) :
    (resolve fs vs r).st.dedupeSz = r.st.dedupeSz +
      (vs.map fun v => confirmedLen fs (r.st.lens v)).sum ∧
    (resolve fs vs r).st.totalSz = r.st.totalSz +
      ((vs.flatMap fun v => groupsOf fs (r.st.lens v)).map
        fun g => recordedLen fs g * (g.length : Int)).sum := by
  induction vs generalizing r with
  | nil => simp [resolve]
  | cons v vs ih =>
    obtain ⟨c1, c2⟩ := sameHash_counters fs (r.st.lens v) r.st
    obtain ⟨hl, _, _⟩ := sameHash_frame fs (r.st.lens v) r.st
    cases herr : (sameHash fs (r.st.lens v) r.st).err with
    | some err =>
      rw [resolve_cons_error fs v vs r err herr]
      obtain ⟨i1, i2⟩ := ih
        { r with st := (sameHash fs (r.st.lens v) r.st).st, out := r.out ++ [Line.readError v] }
      simp only [hl] at i1 i2
      rw [i1, i2, c1, c2]
      simp only [List.map_cons, List.sum_cons, List.flatMap_cons, List.map_append,
        List.sum_append]
      constructor <;> ring
    | none =>
      rw [resolve_cons_ok fs v vs r herr]
      obtain ⟨i1, i2⟩ := ih
        { r with dupes := r.dupes ++ (sameHash fs (r.st.lens v) r.st).dupePaths,
                 members := r.members ++ (sameHash fs (r.st.lens v) r.st).members,
                 st := (sameHash fs (r.st.lens v) r.st).st }
      simp only [hl] at i1 i2
      rw [i1, i2, c1, c2]
      simp only [List.map_cons, List.sum_cons, List.flatMap_cons, List.map_append,
        List.sum_append]
      constructor <;> ring

/-- Accounting in every run: `totalSz` is the sum over the reported groups of the
recorded content length times the number of members, while `dedupeSz` is the sum over
all candidate lengths, those whose bucket has a read failure included, of the lengths
confirmed in the bucket before the failure. -/
theorem accounting_in_every_run (fs : FS) (args : List String) :
    (main fs args).st.totalSz =
      ((main fs args).members.map fun g => recordedLen fs g * (g.length : Int)).sum ∧
    (main fs args).st.dedupeSz =
      ((main fs args).st.dupeLens.map fun v => confirmedLen fs ((main fs args).st.lens v)).sum := by
  by_cases h : args = []
  · subst h
    simp [main_nil, State.init]
  · rw [main_members, main_dupeLens, main_lens]
    rw [main_of_ne fs args h]
    have hst : (finish (resolve fs (candidates fs args) (afterWalk fs args))).st =
        (resolve fs (candidates fs args) (afterWalk fs args)).st := by
      unfold finish
      split <;> rfl
    rw [hst]
    obtain ⟨h1, h2⟩ := resolve_counters_general fs (candidates fs args) (afterWalk fs args)
    constructor
    · simpa [afterWalk, State.init, allGroups] using h2
    · simpa [afterWalk, State.init] using h1

/-- In `fsN` the call of `sameHash` on the bucket `a, b, c` adds the 1100 bytes of the
group `a, b` to `dedupeSz` before the read of `c` fails. -/
theorem fsN_confirmedLen : confirmedLen fsN ["a", "b", "c"] = 1100 := by
  have ht : ["a", "b", "c"].takeWhile (readable fsN) = ["a", "b"] := by decide
  have hs : seconds (checksumOf fsN) ["a", "b"] = ["b"] :=
    seconds_of_same_key (checksumOf fsN) "a" "b" [] rfl (by simp)
  have hc : contentLen fsN "b" = 1100 := by
    have : fsN.readFile "b" = .ok (List.replicate 1100 7) := rfl
    rw [contentLen_of_ok this, List.length_replicate]
    rfl
  unfold confirmedLen
  rw [ht, hs]
  simp [hc]

/-- C15. Accounting under a read failure. In `fsN` the bucket of length 1100 is
`a, b, c`: the group `a, b` is confirmed (`dedupeSz += 1100`), then the read of `c`
fails, `sameHash` returns before its second loop, and the group is neither counted in
`totalSz` nor reported. The run ends with the single reported group `e, f` of one byte,
`totalSz = 2` and `dedupeSz = 1101`, and prints "Wasted space: -1 kb": `totalSz` is
below `dedupeSz`, their difference is not the 1 byte that the reported group wastes,
and the printed figure is negative. -/
theorem C15_accounting_under_read_failure :
    (main fsN ["d"]).st.lens 1100 = ["a", "b", "c"] ∧
    (main fsN ["d"]).members = [["e", "f"]] ∧
    (main fsN ["d"]).out = [Line.readError 1100, Line.wastedSpace (-1), Line.group "e, f"] ∧
    (main fsN ["d"]).st.totalSz = 2 ∧ (main fsN ["d"]).st.dedupeSz = 1101 := by
  have hcand : candidates fsN ["d"] = [1100, 1] := by decide
  have hb1 : bucket fsN ["d"] 1100 = ["a", "b", "c"] := by decide
  have hb2 : bucket fsN ["d"] 1 = ["e", "f"] := by decide
  have hg1 : groupsOf fsN ["a", "b", "c"] = [] :=
    groupsOf_of_not_readable fsN _ (by decide)
  have hg2 : groupsOf fsN ["e", "f"] = [["e", "f"]] := by decide
  have hm : (main fsN ["d"]).members = [["e", "f"]] := by
    rw [main_members, allGroups, hcand]
    simp [hb1, hb2, hg1, hg2]
  have hdup : (main fsN ["d"]).dupes = ["e, f"] := by
    rw [main_dupes, ← main_members, hm]
    decide
  obtain ⟨ht, hd⟩ := accounting_in_every_run fsN ["d"]
  have htot : (main fsN ["d"]).st.totalSz = 2 := by
    rw [ht, hm]
    decide
  have hded : (main fsN ["d"]).st.dedupeSz = 1101 := by
    rw [hd, main_dupeLens, main_lens, hcand]
    have h2 : confirmedLen fsN ["e", "f"] = 1 := by decide
    simp [hb1, hb2, fsN_confirmedLen, h2]
  refine ⟨by rw [main_lens, hb1], hm, ?_, htot, hded⟩
  rw [main_out fsN ["d"] (by decide), htot, hded, hdup, hcand]
  have hw : walkLines fsN ["d"] = [] := by decide
  have hr : readLines fsN (bucket fsN ["d"]) [1100, 1] = [Line.readError 1100] := by
    simp [readLines, hb1, hb2]
    decide
  rw [hw, hr]
  decide

end Dupes
